import Mathlib

/-!
Verification of the DLC-pro laser-controller client library.

The development shallowly embeds the protocol layer of the library:
* `parse.py` — the wire-format codec (`as_bytes`, `atom`, `response` and the
  scanning helpers `_find_tuple_end`, `_find_string_end`), together with the
  error-classification stubs `is_error` / `error`;
* `instrument.py` — `canonicalise`, `Command.__handle_error`,
  `Command.set`/`query`/`do`, and the `Monitor` subscription table;
* `telnet.py` — the `Command` framer state (closed flag, send/receive/close)
  and the `Monitor` stub;
* `errors.py` — `ErrorCode` and `MachineError`.

Modelling conventions:
* Python byte strings are modelled as `List Char` (the protocol is ASCII; the
  `.decode('utf-8')` calls are the identity on this representation).
* Python exceptions are modelled by the `Except PyError` monad.  Distinct
  runtime exception classes (ValueError, NameError, TypeError, AttributeError,
  IndexError, ConnectionError, MachineError) get distinct constructors, since
  several claims hinge on exactly which exception a code path raises.
* Python `while` loops over a byte buffer are transcribed as fuel-indexed
  structural recursions; the wrappers instantiate the fuel with an upper bound
  on the number of iterations (each iteration strictly advances the scan
  position), and fuel-sufficiency lemmas below show the bound is never hit.
        This keeps every definition kernel-computable.
* Python floats are modelled by their exact decimal values (`ℚ` whose
  denominator divides a power of ten): every IEEE double is such a decimal,
  `str` on a float prints a decimal form, and `float(str(x)) == x`.
-/

/-- Python byte strings, modelled as lists of (ASCII) characters. -/
abbrev Bytes := List Char

/-- The exceptions the embedded code can raise.  Each constructor corresponds
to a concrete Python exception class. -/
inductive PyError where
  /-- `ValueError(msg)`. -/
  | valueError (msg : String)
  /-- `NameError`: a reference to an undefined name (e.g. the misspelled
  `_unmatch_exception` in `_find_string_end`, or the undefined `message`
  in `telnet.Command.__receive`). -/
  | nameError
  /-- `AttributeError`: attribute lookup failure (e.g. `self.error_callback`
  in `Command.__handle_error`, which was never assigned — the constructor
  only sets the name-mangled `_Command__error_callback` — or `.decode` on
  the subscripted builtin `bytes` type in `atom`). -/
  | attributeError
  /-- `TypeError`: e.g. concatenating `str` and `bytes` when the `Monitor`
  class builds its exception messages. -/
  | typeError
  /-- `IndexError`: `bytes_[0]` on an empty byte string in `atom`. -/
  | indexError
  /-- `ConnectionError("Connection is not active.")` from the telnet layer. -/
  | connectionError
  /-- `MachineError(code, message)` from `errors.py`. -/
  | machineError (code : Int) (message : String)
  /-- Artifact of the fuel-indexed loop encoding; never produced for the
  fuel used by the wrappers (see the fuel-sufficiency lemmas). -/
  | outOfFuel
deriving DecidableEq, Repr

/-- `ErrorCode = collections.namedtuple('ErrorCode', ['code', 'message'])`
from `errors.py`. -/
structure ErrorCode where
  code : Int
  message : String
deriving DecidableEq, Repr

/-- The Python values the codec produces: `bool`, `int`, `float`, `str` and
arbitrarily nested tuples of these (`parse.response`'s documented output
types).  Floats are modelled by their exact decimal value. -/
inductive Value where
  | bool (b : Bool)
  | int (n : Int)
  | float (q : ℚ)
  | str (s : String)
  | list (vs : List Value)

/-- `parse.is_error(response)`: the source unconditionally returns `False`. -/
def is_error (_response : Bytes) : Bool := false

/-- `parse.error(response)`: the source ignores its argument and returns the
fixed placeholder `ErrorCode(-1, "hello, world")`. -/
def error (_response : Bytes) : ErrorCode := ⟨-1, "hello, world"⟩

/-! ### Decimal digits and numeric atoms -/

/-- Numeric value of a decimal digit character (`c.toNat - 48`). -/
def digitVal (c : Char) : Nat := c.toNat - 48

/-- The fold computing the numeric value of a digit string. -/
def natVal (l : List Char) : Nat := l.foldl (fun a c => a * 10 + digitVal c) 0

/-- Parse a non-empty all-digit string; the digit-string core shared by the
models of Python `int()` and `float()`. -/
def parseDigits (l : List Char) : Option Nat :=
  if l ≠ [] ∧ l.all Char.isDigit then some (natVal l) else none

/-- The six ASCII characters Python's `bytes.strip()` (and `int()`/`float()`
argument normalization) treat as whitespace. -/
def pyWS (c : Char) : Bool :=
  c = ' ' || c = '\t' || c = '\n' || c = '\r' || c = '\x0b' || c = '\x0c'

/-- `bytes.strip()` with no argument: remove leading and trailing ASCII
whitespace. -/
def stripWS (l : List Char) : List Char :=
  ((l.dropWhile pyWS).reverse.dropWhile pyWS).reverse

/-- Model of Python `int(bytes_)`: strip whitespace, optional sign, then a
non-empty run of decimal digits. -/
def intParse (bs : Bytes) : Option Int :=
  let s := stripWS bs
  if s.head? = some '-' then (parseDigits (s.drop 1)).map (fun n => -(Int.ofNat n))
  else if s.head? = some '+' then (parseDigits (s.drop 1)).map (fun n => Int.ofNat n)
  else (parseDigits s).map (fun n => Int.ofNat n)

/-- First index at which `c` occurs in `l`, if any. -/
def findChar (c : Char) : List Char → Option Nat
  | [] => none
  | b :: t => if b = c then some 0 else (findChar c t).map (· + 1)

/-- Model of Python `bytes_.find(c, start)`: the least index `≥ start` holding
`c`.  Python returns `-1` when there is none; we return `none`. -/
def bfind (bs : Bytes) (c : Char) (start : Nat) : Option Nat :=
  (findChar c (bs.drop start)).map (· + start)

/-- Model of Python `float(bytes_)` on the decimal literal grammar
(`[sign] digits [. digits]`, at least one digit): strip whitespace, optional
sign, integer and fractional digit runs around an optional dot.  (The
exponent and `inf`/`nan` forms of the full grammar are not needed by any
claim and are omitted; no token the codec emits uses them.) -/
def floatParse (bs : Bytes) : Option ℚ :=
  let s := stripWS bs
  let sgn : Int := if s.head? = some '-' then -1 else 1
  let t : List Char := if s.head? = some '-' ∨ s.head? = some '+' then s.drop 1 else s
  match findChar '.' t with
  | none => (parseDigits t).map (fun n => mkRat (sgn * Int.ofNat n) 1)
  | some i =>
    let ip := t.take i
    let fp := t.drop (i + 1)
    if ip.all Char.isDigit ∧ fp.all Char.isDigit ∧ (ip ≠ [] ∨ fp ≠ []) then
      some (mkRat (sgn * Int.ofNat (natVal ip * 10 ^ fp.length + natVal fp)) (10 ^ fp.length))
    else none

/-- Decimal digits of a natural number, most significant first (the digit
string Python's `str` prints).  Fuel-indexed so that it is structurally
recursive; `natDigits` supplies sufficient fuel. -/
def natDigitsAux : Nat → Nat → List Char
  | _, 0 => []
  | n, fuel + 1 =>
    if n < 10 then [Nat.digitChar n]
    else natDigitsAux (n / 10) fuel ++ [Nat.digitChar (n % 10)]

/-- Decimal digit string of a natural number. -/
def natDigits (n : Nat) : List Char := natDigitsAux n (n + 1)

/-- Model of Python `str` on an `int`: optional minus sign, then digits. -/
def intRepr (n : Int) : List Char :=
  if n < 0 then '-' :: natDigits n.natAbs else natDigits n.natAbs

/-- Least `k ≤ d` with `d ∣ 10^k`, if any (for `d` whose only prime factors
are 2 and 5 such a `k` exists and is at most `d`). -/
def pow10exp (d : Nat) : Option Nat :=
  (List.range (d + 1)).find? (fun k => 10 ^ k % d == 0)

/-- Model of Python `str`/`repr` on a float with exact decimal value `q`:
sign, integer digits, a dot, and the fractional digits (at least one, so an
integral float prints as `x.0`, and no trailing zeros beyond the shortest
exact form — Python prints the shortest decimal that round-trips, which for
a decimal value is the value itself with trailing zeros removed). -/
def floatRepr (q : ℚ) : List Char :=
  match pow10exp q.den with
  | none => ('0' :: '.' :: ['0'])  -- unreachable: every Python float is a finite decimal
  | some k =>
    let e := max k 1
    let m := q.num.natAbs * (10 ^ e / q.den)
    let fd := natDigits (m % 10 ^ e)
    (if q.num < 0 then ['-'] else []) ++
      natDigits (m / 10 ^ e) ++ '.' :: (List.replicate (e - fd.length) '0' ++ fd)

/-! ### The codec: `parse.py` -/

mutual

/-- `parse.as_bytes(value)`: encode a Python value for the wire.  The source
checks, in order: tuple, bytes, str, bool, int/float; the branches are
disjoint constructors here.  `bytes`/`str` values are wrapped in double
quotes with no escaping (a non-ASCII `str` would raise in
`value.encode('ascii')`; the `Representable` predicate below excludes it).
The final unsupported-type `ValueError` is unreachable: every constructor of
`Value` is a supported type. -/
def as_bytes : Value → Bytes
  | .list vs => '(' :: as_bytesList vs ++ [')']
  | .str s => '"' :: s.data ++ ['"']
  | .bool b => if b then ['#', 't'] else ['#', 'f']
  | .int n => intRepr n
  | .float q => floatRepr q

/-- `b' '.join(map(as_bytes, vs))`: the space-joined element encodings of a
tuple's body. -/
def as_bytesList : List Value → Bytes
  | [] => []
  | [v] => as_bytes v
  | v :: r => as_bytes v ++ ' ' :: as_bytesList r

end

/-- `parse.atom(bytes_)`: decode one atomic token.

`bytes_[0]` on an empty token raises `IndexError`.  The `_BOOLEAN` lexicon
branch handles exactly `#t`/`#f`.  The quoted-string branch of the source
contains the bug `bytes[1:-1]` — it subscripts the builtin `bytes` type
instead of the argument `bytes_`, so `.decode` raises (AttributeError on a
`types.GenericAlias`) — modelled by `.attributeError`.  Otherwise `int()`
then `float()` are tried, and failure of both raises `ValueError`. -/
def atom (bs : Bytes) : Except PyError Value :=
  match bs with
  | [] => .error .indexError
  | b0 :: _ =>
    if b0 = '#' ∧ (bs = ['#', 't'] ∨ bs = ['#', 'f']) then
      .ok (.bool (bs = ['#', 't']))
    else if b0 = '"' ∧ bs.getLast? = some '"' then
      .error .attributeError
    else
      match intParse bs with
      | some n => .ok (.int n)
      | none =>
        match floatParse bs with
        | some q => .ok (.float q)
        | none => .error (.valueError ("Couldn't decode atom '" ++ String.mk bs ++ "'."))

/-- `parse._unmatched_exception(bytes_, pos)`. -/
def _unmatched_exception (bs : Bytes) (pos : Nat) : PyError :=
  .valueError ("Improper response '" ++ String.mk bs ++ "'." ++
    "  Unmatched '" ++ String.mk [bs.getD pos ' '] ++ "' at position " ++ toString pos ++ ".")

/-- The scanning loop of `parse._find_tuple_end`: from position `pos` with
`opn` currently-open brackets, find the position of the bracket closing the
tuple.  `)` decrements the count and stops at zero; `(` increments it;
a `"` jumps past the next `"` (so parentheses inside strings are skipped),
and if no closing quote exists Python sets `pos = -1` and the wrapper raises
— modelled by `none`.  Falling off the end of the buffer exits the loop with
the current (non-negative) position, which the wrapper happily accepts.
Fuel-indexed; the position strictly increases every iteration, so
`bs.length - pos < fuel` guarantees the `0` case is never reached. -/
def ftGo (bs : Bytes) : Nat → Nat → Int → Option Nat
  | 0, _, _ => none
  | fuel + 1, pos, opn =>
    if h : pos < bs.length then
      if bs.get ⟨pos, h⟩ = ')' then
        if opn - 1 = 0 then some pos else ftGo bs fuel (pos + 1) (opn - 1)
      else if bs.get ⟨pos, h⟩ = '(' then ftGo bs fuel (pos + 1) (opn + 1)
      else if bs.get ⟨pos, h⟩ = '"' then
        match bfind bs '"' (pos + 1) with
        | none => none
        | some p => ftGo bs fuel (p + 1) opn
      else ftGo bs fuel (pos + 1) opn
    else some pos

/-- `parse._find_tuple_end(bytes_, start)`: index one past the bracket ending
the tuple opened at `start`.  Raises the unmatched-delimiter `ValueError`
only when a quote inside the tuple is unterminated (`pos < 0`); if the
nesting depth never returns to zero the loop just runs off the end and the
function returns `len + 1` — it does NOT raise (this mirrors the source). -/
def _find_tuple_end (bs : Bytes) (start : Nat) : Except PyError Nat :=
  match ftGo bs (bs.length + 1) (start + 1) 1 with
  | none => .error (_unmatched_exception bs start)
  | some pos => .ok (pos + 1)

/-- `parse._find_string_end(bytes_, start)`: index one past the quote closing
the string opened at `start`.  When there is no closing quote the source
calls the misspelled helper `_unmatch_exception`, which is undefined, so the
actual exception raised is a `NameError`, not the documented `ValueError`. -/
def _find_string_end (bs : Bytes) (start : Nat) : Except PyError Nat :=
  match bfind bs '"' (start + 1) with
  | none => .error .nameError
  | some pos => .ok (pos + 1)

/-- Python slice `bytes_[a:b]` (with clamping). -/
def pySlice (bs : Bytes) (a b : Nat) : Bytes := (bs.drop a).take (b - a)

/-- The tokenising loop of `parse._response_recursive`: starting at `pos`
with already-collected values `acc`, classify the token at `pos` by its
first character (string / tuple / atom), append its value, and continue one
past the token's end (skipping the separator).  Fuel-indexed: `pos` strictly
increases each iteration and nested tuples recurse on a strictly shorter
slice, so `bs.length - pos < fuel` suffices (see the sufficiency lemma). -/
def responseLoop (bs : Bytes) : Nat → Nat → List Value → Except PyError (List Value)
  | 0, _, _ => .error .outOfFuel
  | fuel + 1, pos, acc =>
    if h : pos < bs.length then
      if bs.get ⟨pos, h⟩ = '"' then
        match _find_string_end bs pos with
        | .error e => .error e
        | .ok en =>
          -- the source's `if end < 0: raise` here is dead code (`en : Nat`)
          responseLoop bs fuel (en + 1) (acc ++ [.str (String.mk (pySlice bs (pos + 1) (en - 1)))])
      else if bs.get ⟨pos, h⟩ = '(' then
        match _find_tuple_end bs pos with
        | .error e => .error e
        | .ok en =>
          match responseLoop (pySlice bs (pos + 1) (en - 1)) fuel 0 [] with
          | .error e => .error e
          | .ok inner => responseLoop bs fuel (en + 1) (acc ++ [.list inner])
      else
        let en := match bfind bs ' ' (pos + 1) with
          | none => bs.length
          | some p => p
        match atom (pySlice bs pos en) with
        | .error e => .error e
        | .ok v => responseLoop bs fuel (en + 1) (acc ++ [v])
    else .ok acc

/-- `parse._response_recursive(bytes_)`: tokenize and parse recursively,
returning the ordered sequence of values at this level. -/
def _response_recursive (bs : Bytes) : Except PyError (List Value) :=
  responseLoop bs (bs.length + 1) 0 []

/-- A decoded top-level reply: either a value or an `ErrorCode`
(the declared output type of `parse.response`). -/
inductive Resp where
  | val (v : Value)
  | err (e : ErrorCode)

/-- The `MultipleTopLevelValues` message of `parse.response`. -/
def improper_spaces_message (bs : Bytes) : String :=
  "Improper response '" ++ String.mk bs ++ "'." ++
    "  Responses cannot contain spaces without being" ++ " inside a tuple."

/-- `parse.response(bytes_)`: full decode.  If `is_error` classified the
reply as an error it would be parsed with `error` (this branch is dead,
since `is_error` is constantly `False`); otherwise the top level must
reduce to exactly one value, else `ValueError`. -/
def response (bs : Bytes) : Except PyError Resp :=
  if is_error bs then .ok (.err (error bs))
  else
    match _response_recursive bs with
    | .error e => .error e
    | .ok out =>
      match out with
      | [v] => .ok (.val v)
      | _ => .error (.valueError (improper_spaces_message bs))

/-! ### `instrument.py` -/

/-- `bytes.rstrip(b":")`: remove trailing colons. -/
def rstripColon (l : List Char) : List Char :=
  (l.reverse.dropWhile (fun c => c = ':')).reverse

/-- `instrument.canonicalise(parameter)`: a `str` argument is first encoded
as ASCII (the identity on this representation; non-ASCII raises and is out
of scope), then `parameter.strip().rstrip(b":")`. -/
def canonicalise (parameter : Bytes) : Bytes :=
  rstripColon (stripWS parameter)

/-- `instrument.Command.__handle_error(self, response, callback)`.

`code, message = parse.error(response)` ignores the reply and always yields
the placeholder `(-1, "hello, world")`.  If a per-call `callback` is given
its result is returned.  Otherwise the source evaluates
`self.error_callback` — an attribute that is never assigned (the constructor
sets the name-mangled `self.__error_callback`), so the lookup raises
`AttributeError` before the session-level default (`selfCallback` here)
could be consulted or `MachineError` raised.  The first parameter is
polymorphic because `set` passes the raw reply bytes while `query`/`do`
pass other objects; `parse.error` ignores it either way. -/
def handle_error {α β : Type} (_response : α)
    (callback : Option (Int → String → β))
    (_selfCallback : Option (Int → String → β)) : Except PyError β :=
  let ec := error []
  match callback with
  | some f => .ok (f ec.code ec.message)
  | none => .error .attributeError

/-- `isinstance(x, ErrorCode)` for a byte-string `x`: always `False` —
the telnet layer returns `bytes`, never an `ErrorCode` instance. -/
def isinstanceErrorCode (_b : Bytes) : Bool := false

/-- `instrument.Command.set`, as a function of the raw reply the telnet
layer returned: the reply is a byte string, so the `isinstance(response,
ErrorCode)` test never fires and the method returns `None`. -/
def Command.set {β : Type} (reply : Bytes)
    (callback selfCallback : Option (Int → String → β)) : Except PyError (Option β) :=
  if isinstanceErrorCode reply then
    match handle_error reply callback selfCallback with
    | .error e => .error e
    | .ok b => .ok (some b)
  else .ok none

/-- `instrument.Command.query`, as a function of the raw reply: decode with
`parse.response`; an `ErrorCode` result would be dispatched through
`__handle_error`, any other is returned. -/
def Command.query {β : Type} (reply : Bytes)
    (callback selfCallback : Option (Int → String → β)) : Except PyError (Value ⊕ β) :=
  match response reply with
  | .error e => .error e
  | .ok (.err ec) =>
    match handle_error ec callback selfCallback with
    | .error e => .error e
    | .ok b => .ok (.inr b)
  | .ok (.val v) => .ok (.inl v)

/-- `instrument.Command.do`, as a function of the raw reply: decode; an
`ErrorCode` result would be dispatched through `__handle_error` (note the
source passes the raw `response` bytes there, not the decoded value); an
empty tuple becomes `None`, anything else is returned. -/
def Command.do {β : Type} (reply : Bytes)
    (callback selfCallback : Option (Int → String → β)) : Except PyError (Option Value ⊕ β) :=
  match response reply with
  | .error e => .error e
  | .ok (.err _) =>
    match handle_error reply callback selfCallback with
    | .error e => .error e
    | .ok b => .ok (.inr b)
  | .ok (.val v) =>
    match v with
    | .list [] => .ok (.inl none)
    | _ => .ok (.inl (some v))

/-! ### `telnet.py` -/

/-- `telnet.Monitor`: the class in the source is a stub — `__init__` sets
`self.all = None`, and the methods print their argument and return `None`. -/
structure TelnetMonitor where
  all : Option Unit

/-- `telnet.Monitor.add(self, parameter, interval, threshold)`: the body is
`print(parameter, type(parameter))` — it returns `None`.  No observable is
created, no polling is scheduled, and no threshold logic exists anywhere in
the source. -/
def TelnetMonitor.add (_m : TelnetMonitor) (_parameter : Bytes)
    (_interval : Int) (_threshold : Option Int) : Option Unit :=
  none

/-- `telnet.Monitor.remove(self, parameter)`: `print(parameter)`, returns
`None`. -/
def TelnetMonitor.remove (_m : TelnetMonitor) (_parameter : Bytes) : Option Unit :=
  none

/-- The state of `telnet.Command`: the `closed` flag (the connection handle
and logger are I/O collaborators outside the embedding). -/
structure TelnetCommand where
  closed : Bool
deriving DecidableEq, Repr

/-- `telnet.Command.__send`: if the session is closed, log and raise
`ConnectionError("Connection is not active.")`; otherwise write the framed
message (the write itself is I/O and modelled as succeeding). -/
def TelnetCommand.send (st : TelnetCommand) (_parts : List Bytes) :
    Except PyError TelnetCommand :=
  if st.closed then .error .connectionError
  else .ok st

/-- `bytes.rstrip(chars)`: remove trailing characters drawn from `chars`. -/
def rstripSet (bs : Bytes) (chars : List Char) : Bytes :=
  (bs.reverse.dropWhile (fun c => chars.contains c)).reverse

/-- Python `bytes.split(b'\r\n')`. -/
def splitCRLF : Bytes → List Bytes
  | [] => [[]]
  | '\r' :: '\n' :: rest => [] :: splitCRLF rest
  | c :: rest =>
    match splitCRLF rest with
    | [] => [[c]]
    | h :: t => (c :: h) :: t

/-- The reply-payload framing of `telnet.Command.__receive`:
`read_until(PROMPT).rstrip(NEW_LINE + PROMPT)`, drop the first line (the
echoed command), join the rest and strip trailing newline bytes. -/
def receivePayload (received : Bytes) : Bytes :=
  let r := rstripSet received ['\r', '\n', '>', ' ']
  rstripSet (List.flatten ((splitCRLF r).drop 1)) ['\r', '\n']

/-- `telnet.Command.__receive`: when the session is closed the source first
builds a log string from the variable `message` — which is not defined in
this method (it was copied from `__send`) — so the lookup raises
`NameError` before the intended `ConnectionError` line is reached.  On an
open session, read and unframe the reply. -/
def TelnetCommand.receive (st : TelnetCommand) (incoming : Bytes) :
    Except PyError (TelnetCommand × Bytes) :=
  if st.closed then .error .nameError
  else .ok (st, receivePayload incoming)

/-- `telnet.Command.close`: a no-op when already closed; otherwise send the
quit directive and mark the session closed. -/
def TelnetCommand.close (st : TelnetCommand) : Except PyError TelnetCommand :=
  if st.closed then .ok st
  else
    match st.send [('q' :: 'u' :: 'i' :: ['t'])] with
    | .error e => .error e
    | .ok st2 => .ok { st2 with closed := true }

/-! ### `instrument.Monitor` -/

/-- One entry of `instrument.Monitor.__monitors`: the tuple
`(obs, interval, threshold)` stored by `begin_monitoring`. -/
structure Subscription where
  obs : Option Unit
  interval : Int
  threshold : Option Int
deriving DecidableEq, Repr

/-- The state of `instrument.Monitor`: the `__monitors` dict, modelled as an
association list keyed by the canonical parameter bytes. -/
structure MonitorState where
  monitors : List (Bytes × Subscription)
deriving DecidableEq, Repr

/-- `instrument.Monitor.is_monitoring(parameter)`: `parameter in
self.__monitors`. -/
def MonitorState.is_monitoring (st : MonitorState) (parameter : Bytes) : Bool :=
  (st.monitors.lookup parameter).isSome

/-- `instrument.Monitor.begin_monitoring(parameter, interval, threshold)`
(the `@canonical` decorator has already canonicalised `parameter` to bytes).
If the parameter is not yet monitored, ask the telnet stub for an
observable (always `None`), store the entry and return it.  Otherwise the
source executes `raise ValueError("Already monitoring parameter " +
parameter + ".")` — but `parameter` is a byte string, and `str + bytes`
raises `TypeError`, so that is the exception that escapes; the table is not
touched on this path. -/
def MonitorState.begin_monitoring (st : MonitorState) (parameter : Bytes)
    (interval : Int) (threshold : Option Int) :
    Except PyError (MonitorState × Option Unit) :=
  if st.is_monitoring parameter = false then
    let obs := TelnetMonitor.add ⟨none⟩ parameter interval threshold
    .ok (⟨st.monitors ++ [(parameter, ⟨obs, interval, threshold⟩)]⟩, obs)
  else .error .typeError

/-- `instrument.Monitor.stop_monitoring(parameter)`: if monitored, remove
the subscription (the telnet stub's `remove` only prints); otherwise the
source executes `raise ValueError("Not monitoring parameter " + parameter +
".")`, which again raises `TypeError` from the `str + bytes` concatenation;
the table is not touched on this path. -/
def MonitorState.stop_monitoring (st : MonitorState) (parameter : Bytes) :
    Except PyError MonitorState :=
  if st.is_monitoring parameter then
    .ok ⟨st.monitors.eraseP (fun e => e.1 = parameter)⟩
  else .error .typeError

mutual

def valueDecEq : (a b : Value) → Decidable (a = b)
  | .bool a, .bool b =>
    match decEq a b with
    | isTrue h => isTrue (by rw [h])
    | isFalse h => isFalse (fun he => h (by cases he; rfl))
  | .int a, .int b =>
    match decEq a b with
    | isTrue h => isTrue (by rw [h])
    | isFalse h => isFalse (fun he => h (by cases he; rfl))
  | .float a, .float b =>
    match decEq a b with
    | isTrue h => isTrue (by rw [h])
    | isFalse h => isFalse (fun he => h (by cases he; rfl))
  | .str a, .str b =>
    match decEq a b with
    | isTrue h => isTrue (by rw [h])
    | isFalse h => isFalse (fun he => h (by cases he; rfl))
  | .list a, .list b =>
    match valueListDecEq a b with
    | isTrue h => isTrue (by rw [h])
    | isFalse h => isFalse (fun he => h (by cases he; rfl))
  | .bool _, .int _ => isFalse (fun h => Value.noConfusion h)
  | .bool _, .float _ => isFalse (fun h => Value.noConfusion h)
  | .bool _, .str _ => isFalse (fun h => Value.noConfusion h)
  | .bool _, .list _ => isFalse (fun h => Value.noConfusion h)
  | .int _, .bool _ => isFalse (fun h => Value.noConfusion h)
  | .int _, .float _ => isFalse (fun h => Value.noConfusion h)
  | .int _, .str _ => isFalse (fun h => Value.noConfusion h)
  | .int _, .list _ => isFalse (fun h => Value.noConfusion h)
  | .float _, .bool _ => isFalse (fun h => Value.noConfusion h)
  | .float _, .int _ => isFalse (fun h => Value.noConfusion h)
  | .float _, .str _ => isFalse (fun h => Value.noConfusion h)
  | .float _, .list _ => isFalse (fun h => Value.noConfusion h)
  | .str _, .bool _ => isFalse (fun h => Value.noConfusion h)
  | .str _, .int _ => isFalse (fun h => Value.noConfusion h)
  | .str _, .float _ => isFalse (fun h => Value.noConfusion h)
  | .str _, .list _ => isFalse (fun h => Value.noConfusion h)
  | .list _, .bool _ => isFalse (fun h => Value.noConfusion h)
  | .list _, .int _ => isFalse (fun h => Value.noConfusion h)
  | .list _, .float _ => isFalse (fun h => Value.noConfusion h)
  | .list _, .str _ => isFalse (fun h => Value.noConfusion h)

def valueListDecEq : (a b : List Value) → Decidable (a = b)
  | [], [] => isTrue rfl
  | [], _ :: _ => isFalse (fun h => List.noConfusion h)
  | _ :: _, [] => isFalse (fun h => List.noConfusion h)
  | a :: as, b :: bs =>
    match valueDecEq a b, valueListDecEq as bs with
    | isTrue h1, isTrue h2 => isTrue (by rw [h1, h2])
    | isFalse h1, _ => isFalse (fun h => h1 (List.cons.inj h).1)
    | _, isFalse h2 => isFalse (fun h => h2 (List.cons.inj h).2)

end

instance : DecidableEq Value := valueDecEq

deriving instance DecidableEq for Resp

deriving instance DecidableEq for Except

/-! ### Helper lemmas: the codec never raises `MachineError` -/

/-- `_find_string_end` raises only `NameError`. -/
lemma _find_string_end_ne_machineError (bs : Bytes) (start : Nat) (c : Int) (m : String) :
    _find_string_end bs start ≠ .error (.machineError c m) := by
  unfold _find_string_end
  cases bfind bs '"' (start + 1) <;> simp

/-- `_find_tuple_end` raises only the unmatched-delimiter `ValueError`. -/
lemma _find_tuple_end_ne_machineError (bs : Bytes) (start : Nat) (c : Int) (m : String) :
    _find_tuple_end bs start ≠ .error (.machineError c m) := by
  unfold _find_tuple_end
  cases ftGo bs (bs.length + 1) (start + 1) 1 <;> simp [_unmatched_exception]

/-- `atom` raises only `IndexError`, `AttributeError` or `ValueError`. -/
lemma atom_ne_machineError (bs : Bytes) (c : Int) (m : String) :
    atom bs ≠ .error (.machineError c m) := by
  unfold atom
  cases bs with
  | nil => simp
  | cons b0 t =>
    dsimp only
    split
    · simp
    · split
      · simp
      · cases hip : intParse (b0 :: t) with
        | some n => simp
        | none =>
          cases hfp : floatParse (b0 :: t) with
          | some q => simp
          | none => simp

/-- The tokenising loop never raises `MachineError` (its only exceptions are
the scanning helpers' and `atom`'s, plus the fuel artifact). -/
lemma responseLoop_ne_machineError :
    ∀ (fuel : Nat) (bs : Bytes) (pos : Nat) (acc : List Value) (c : Int) (m : String),
      responseLoop bs fuel pos acc ≠ .error (.machineError c m) := by
  intro fuel
  induction fuel with
  | zero => intro bs pos acc c m; simp [responseLoop]
  | succ f ih =>
    intro bs pos acc c m
    rw [responseLoop]
    split
    · split
      · cases h1 : _find_string_end bs pos with
        | error e =>
          intro heq
          injection heq with he
          subst he
          exact _find_string_end_ne_machineError bs pos c m h1
        | ok en =>
          dsimp only
          exact ih _ _ _ _ _
      · split
        · cases h1 : _find_tuple_end bs pos with
          | error e =>
            intro heq
            injection heq with he
            subst he
            exact _find_tuple_end_ne_machineError bs pos c m h1
          | ok en =>
            dsimp only
            cases h2 : responseLoop (pySlice bs (pos + 1) (en - 1)) f 0 [] with
            | error e =>
              intro heq
              injection heq with he
              subst he
              exact ih _ _ _ c m h2
            | ok inner =>
              dsimp only
              exact ih _ _ _ _ _
        · dsimp only
          cases h2 : atom (pySlice bs pos (match bfind bs ' ' (pos + 1) with
            | none => bs.length
            | some p => p)) with
          | error e =>
            intro heq
            injection heq with he
            subst he
            exact atom_ne_machineError _ c m h2
          | ok v =>
            dsimp only
            exact ih _ _ _ _ _
    · simp

/-- `parse.response` never raises `MachineError`. -/
lemma response_ne_machineError (bs : Bytes) (c : Int) (m : String) :
    response bs ≠ .error (.machineError c m) := by
  unfold response
  simp only [is_error, if_false, Bool.false_eq_true]
  cases h : _response_recursive bs with
  | error e =>
    intro heq
    injection heq with he
    subst he
    exact responseLoop_ne_machineError _ _ _ _ c m h
  | ok out =>
    match out with
    | [] => simp
    | [v] => simp
    | a :: b :: t => simp

/-! ### Claims C2, C3, C5, C6, C7, C9 (concrete evaluations) and C4, C8, C10 -/

/-- C2: decoding `b'("a)b" 1 2)'` yields the list `["a)b", 1, 2]`; the `)`
inside the quoted substring does not close the tuple, because
`_find_tuple_end` jumps over quoted content while counting depth. -/
theorem quoted_paren_roundtrip :
    response ('(' :: '"' :: 'a' :: ')' :: 'b' :: '"' :: ' ' :: '1' :: ' ' :: '2' :: [')']) =
      .ok (.val (.list [.str ("a)b"), .int 1, .int 2])) := rfl

/-- C3 (refuting the claim on the code): an unterminated list is NOT
reported.  `_find_tuple_end` only raises when a quote search fails; when
the depth never returns to zero the loop runs off the end and the partial
content is parsed and returned — `decode(b'(1 2')` silently yields
`(1, 2)`.  An unterminated string raises `NameError` (the source calls the
misspelled, undefined helper `_unmatch_exception`), not the documented
`ValueError`. -/
theorem unterminated_inputs_behaviour :
    response ('(' :: '1' :: ' ' :: ['2']) = .ok (.val (.list [.int 1, .int 2])) ∧
    response ('"' :: 'a' :: ['b']) = .error .nameError ∧
    _find_string_end ('"' :: 'a' :: ['b']) 0 = .error .nameError :=
  ⟨rfl, rfl, rfl⟩

/-- C4 (refuting the claim on the code): `Command.__handle_error` with no
per-call callback raises `AttributeError` — the source reads
`self.error_callback`, an attribute that is never assigned — regardless of
whether a session-level default callback is configured, so `MachineError`
is never raised and the default callback is never consulted.  With a
per-call callback, the callback's value is returned, but its arguments are
the placeholder `(-1, "hello, world")` from `parse.error`, not the
instrument's reported code and message. -/
theorem handle_error_dispatch (β : Type) (r : Bytes)
    (selfCb : Option (Int → String → β)) :
    handle_error r none selfCb = .error .attributeError ∧
    ∀ f : Int → String → β, handle_error r (some f) selfCb = .ok (f (-1) ("hello, world")) :=
  ⟨rfl, fun _ => rfl⟩

/-- C5 (refuting the claim on the code): `canonicalise` strips whitespace
first and trailing colons second, so `" foo : "` canonicalises to
`b"foo "` — the inner padding space survives, contradicting both the
claimed result `"foo"` and idempotence (a second application yields
`b"foo"`).  The two simpler examples do canonicalise to `b"foo"`. -/
theorem canonicalise_not_idempotent :
    canonicalise (' ' :: 'f' :: 'o' :: 'o' :: ' ' :: ':' :: [' ']) = ('f' :: 'o' :: 'o' :: [' ']) ∧
    canonicalise (canonicalise (' ' :: 'f' :: 'o' :: 'o' :: ' ' :: ':' :: [' '])) ≠
      canonicalise (' ' :: 'f' :: 'o' :: 'o' :: ' ' :: ':' :: [' ']) ∧
    canonicalise ('f' :: 'o' :: 'o' :: [' ']) = ('f' :: 'o' :: ['o']) ∧
    canonicalise ('f' :: 'o' :: 'o' :: [':']) = ('f' :: 'o' :: ['o']) := by
  refine ⟨rfl, ?_, rfl, rfl⟩
  decide

/-- C6 (refuting the claim on the code): `begin_monitoring` on an
already-monitored parameter and `stop_monitoring` on an unmonitored one
both fail with `TypeError`, not the documented `ValueError`: the handlers
build their message as `"..." + parameter`, and `parameter` has been
canonicalised to a byte string, so the `str + bytes` concatenation raises
before the `ValueError` is even constructed.  (The failing paths return no
new state, so the subscription table is indeed left unchanged.) -/
theorem monitor_duplicate_and_absent :
    MonitorState.is_monitoring ⟨[(('f' :: 'o' :: ['o']), ⟨none, 5, none⟩)]⟩ ('f' :: 'o' :: ['o']) = true ∧
    MonitorState.begin_monitoring ⟨[(('f' :: 'o' :: ['o']), ⟨none, 5, none⟩)]⟩ ('f' :: 'o' :: ['o']) 5 none =
      .error .typeError ∧
    MonitorState.stop_monitoring ⟨[]⟩ ('f' :: 'o' :: ['o']) = .error .typeError := by
  refine ⟨by decide, by decide, by decide⟩

/-- C7 (refuting the claim on the code): there is no sampling or threshold
logic — `telnet.Monitor.add` is a stub that prints its argument and
returns `None`, so `begin_monitoring` stores `None` in the subscription
table and hands `None` back to the caller; no sample is ever emitted. -/
theorem monitor_add_is_stub (m : TelnetMonitor) (p : Bytes) (i : Int) (t : Option Int) :
    TelnetMonitor.add m p i t = none ∧
    MonitorState.begin_monitoring ⟨[]⟩ p i t = .ok (⟨[(p, ⟨none, i, t⟩)]⟩, none) :=
  ⟨rfl, rfl⟩

/-- C8: the top level of a decoded response must reduce to exactly one
value; if tokenisation succeeds with more than one top-level token,
`response` raises the multiple-top-level-values `ValueError`. -/
theorem multiple_top_level_values (bs : Bytes) (out : List Value)
    (h : _response_recursive bs = .ok out) (hlen : 1 < out.length) :
    response bs = .error (.valueError (improper_spaces_message bs)) := by
  unfold response
  simp only [is_error, Bool.false_eq_true, if_false]
  rw [h]
  match out, hlen with
  | a :: b :: t, _ => rfl

/-- Witness for C8 at the concrete input `b'1 2'`. -/
theorem multiple_top_level_values_witness :
    _response_recursive ('1' :: ' ' :: ['2']) = .ok [.int 1, .int 2] ∧
    1 < ([Value.int 1, Value.int 2]).length ∧
    response ('1' :: ' ' :: ['2']) =
      .error (.valueError (improper_spaces_message ('1' :: ' ' :: ['2']))) :=
  ⟨rfl, by decide, multiple_top_level_values _ _ rfl (by decide)⟩

/-- C9 (refuting the claim on the code): with the session closed, `send`
does fail with `ConnectionError` and `close` is a no-op, but `receive`
raises `NameError` — its closed-branch log line references the variable
`message`, which is not defined in `__receive` — so the intended
`ConnectionError` line is never reached. -/
theorem closed_session_behaviour (parts : List Bytes) (incoming : Bytes) :
    TelnetCommand.send ⟨true⟩ parts = .error .connectionError ∧
    TelnetCommand.receive ⟨true⟩ incoming = .error .nameError ∧
    TelnetCommand.close ⟨true⟩ = .ok ⟨true⟩ :=
  ⟨rfl, rfl, rfl⟩

/-- C10: `is_error` is constantly `False` and `error` constantly
`ErrorCode(-1, "hello, world")`; consequently `response` never returns an
`ErrorCode`, and `Command.set`/`query`/`do` never take the error-dispatch
branch: no error callback's result is ever returned and `MachineError` is
never raised, whatever the instrument replied. -/
theorem error_classification_never_fires :
    (∀ bs, is_error bs = false) ∧
    (∀ bs, error bs = ⟨-1, "hello, world"⟩) ∧
    (∀ bs ec, response bs ≠ .ok (.err ec)) ∧
    (∀ (β : Type) (reply : Bytes) (cb selfCb : Option (Int → String → β)),
      Command.set reply cb selfCb = .ok none) ∧
    (∀ (β : Type) (reply : Bytes) (cb selfCb : Option (Int → String → β)) (b : β),
      Command.query reply cb selfCb ≠ .ok (.inr b)) ∧
    (∀ (β : Type) (reply : Bytes) (cb selfCb : Option (Int → String → β)) (c : Int) (m : String),
      Command.query reply cb selfCb ≠ .error (.machineError c m)) ∧
    (∀ (β : Type) (reply : Bytes) (cb selfCb : Option (Int → String → β)) (b : β),
      Command.do reply cb selfCb ≠ .ok (.inr b)) ∧
    (∀ (β : Type) (reply : Bytes) (cb selfCb : Option (Int → String → β)) (c : Int) (m : String),
      Command.do reply cb selfCb ≠ .error (.machineError c m)) := by
  have hne : ∀ bs ec, response bs ≠ Except.ok (Resp.err ec) := by
    intro bs ec
    unfold response
    simp only [is_error, Bool.false_eq_true, if_false]
    cases h : _response_recursive bs with
    | error e => simp
    | ok out =>
      match out with
      | [] => simp
      | [v] => simp
      | a :: b :: t => simp
  refine ⟨fun _ => rfl, fun _ => rfl, hne, fun β reply cb selfCb => rfl, ?_, ?_, ?_, ?_⟩
  · intro β reply cb selfCb b
    unfold Command.query
    cases h : response reply with
    | error e => simp
    | ok r =>
      cases r with
      | val v => simp
      | err ec => exact absurd h (hne reply ec)
  · intro β reply cb selfCb c m
    unfold Command.query
    cases h : response reply with
    | error e =>
      dsimp only
      intro heq
      injection heq with he
      subst he
      exact response_ne_machineError reply c m h
    | ok r =>
      cases r with
      | val v => simp
      | err ec => exact absurd h (hne reply ec)
  · intro β reply cb selfCb b
    unfold Command.do
    cases h : response reply with
    | error e => simp
    | ok r =>
      cases r with
      | val v =>
        dsimp only
        match v with
        | .list [] => simp
        | .list (x :: t) => simp
        | .bool b2 => simp
        | .int n => simp
        | .float q => simp
        | .str s => simp
      | err ec => exact absurd h (hne reply ec)
  · intro β reply cb selfCb c m
    unfold Command.do
    cases h : response reply with
    | error e =>
      dsimp only
      intro heq
      injection heq with he
      subst he
      exact response_ne_machineError reply c m h
    | ok r =>
      cases r with
      | val v =>
        dsimp only
        match v with
        | .list [] => simp
        | .list (x :: t) => simp
        | .bool b2 => simp
        | .int n => simp
        | .float q => simp
        | .str s => simp
      | err ec => exact absurd h (hne reply ec)

/-! ### C1 development, part 1: decimal digits -/

/-- The digit characters produced by `Nat.digitChar` for `d < 10` are
decimal digits with the expected numeric value and are none of the
protocol's special characters. -/
lemma digitChar_isDigit {d : Nat} (h : d < 10) : (Nat.digitChar d).isDigit = true := by
  interval_cases d <;> decide

lemma digitVal_digitChar {d : Nat} (h : d < 10) : digitVal (Nat.digitChar d) = d := by
  interval_cases d <;> decide

lemma isDigit_ne {c x : Char} (h : c.isDigit = true) (hx : x.isDigit = false) : c ≠ x := by
  intro he
  subst he
  rw [h] at hx
  cases hx

lemma natDigitsAux_suff :
    ∀ (f1 : Nat) (n f2 : Nat), n < f1 → n < f2 → natDigitsAux n f1 = natDigitsAux n f2 := by
  intro f1
  induction f1 with
  | zero => intro n f2 h1 h2; omega
  | succ f ih =>
    intro n f2 h1 h2
    match f2, h2 with
    | f2 + 1, _ =>
      rw [natDigitsAux, natDigitsAux]
      split
      · rfl
      · have hn : 10 ≤ n := by omega
        have hd : n / 10 < f := by
          have := Nat.div_lt_self (by omega : 0 < n) (by omega : 1 < 10)
          omega
        have hd2 : n / 10 < f2 := by
          have := Nat.div_lt_self (by omega : 0 < n) (by omega : 1 < 10)
          omega
        rw [ih (n / 10) f2 hd hd2]

/-- The defining equation of `natDigits`, free of fuel. -/
lemma natDigits_eq (n : Nat) :
    natDigits n = if n < 10 then [Nat.digitChar n]
      else natDigits (n / 10) ++ [Nat.digitChar (n % 10)] := by
  rw [natDigits, natDigitsAux]
  split
  · rfl
  · rw [natDigits]
    have hn : 10 ≤ n := by omega
    have hd : n / 10 < n := Nat.div_lt_self (by omega) (by omega)
    rw [natDigitsAux_suff n (n / 10) (n / 10 + 1) hd (by omega)]

lemma natDigits_ne_nil (n : Nat) : natDigits n ≠ [] := by
  rw [natDigits_eq]
  split <;> simp

lemma natDigits_all_digits (n : Nat) : ∀ c ∈ natDigits n, c.isDigit = true := by
  induction n using Nat.strong_induction_on with
  | _ n ih =>
    rw [natDigits_eq]
    split
    · intro c hc
      simp only [List.mem_singleton] at hc
      subst hc
      exact digitChar_isDigit (by omega)
    · intro c hc
      rcases List.mem_append.mp hc with h | h
      · exact ih (n / 10) (Nat.div_lt_self (by omega) (by omega)) c h
      · simp only [List.mem_singleton] at h
        subst h
        exact digitChar_isDigit (Nat.mod_lt _ (by omega))

lemma natVal_append_singleton (l : List Char) (c : Char) :
    natVal (l ++ [c]) = natVal l * 10 + digitVal c := by
  unfold natVal
  rw [List.foldl_append]
  rfl

lemma natVal_natDigits (n : Nat) : natVal (natDigits n) = n := by
  induction n using Nat.strong_induction_on with
  | _ n ih =>
    rw [natDigits_eq]
    split
    · unfold natVal
      simp only [List.foldl_cons, List.foldl_nil]
      rw [Nat.zero_mul, Nat.zero_add]
      exact digitVal_digitChar (by omega)
    · rw [natVal_append_singleton]
      rw [ih (n / 10) (Nat.div_lt_self (by omega) (by omega))]
      rw [digitVal_digitChar (Nat.mod_lt _ (by omega))]
      omega

lemma parseDigits_natDigits (n : Nat) : parseDigits (natDigits n) = some n := by
  unfold parseDigits
  rw [if_pos, natVal_natDigits]
  refine ⟨natDigits_ne_nil n, ?_⟩
  rw [List.all_eq_true]
  intro c hc
  exact natDigits_all_digits n c hc

lemma natVal_zeros_append (z : Nat) (l : List Char) :
    natVal (List.replicate z '0' ++ l) = natVal l := by
  induction z with
  | zero => rfl
  | succ k ih =>
    have h1 : List.replicate (k + 1) '0' ++ l = '0' :: (List.replicate k '0' ++ l) := by
      rw [List.replicate_succ, List.cons_append]
    rw [h1]
    have h2 : natVal ('0' :: (List.replicate k '0' ++ l)) = natVal (List.replicate k '0' ++ l) := by
      unfold natVal
      rw [List.foldl_cons]
      congr 1
    rw [h2, ih]

lemma natDigits_length_le (L n : Nat) (hL : 1 ≤ L) (h : n < 10 ^ L) :
    (natDigits n).length ≤ L := by
  induction L generalizing n with
  | zero => omega
  | succ K ih =>
    rw [natDigits_eq]
    split
    · simp
    · have hn : 10 ≤ n := by omega
      have hK : 1 ≤ K := by
        by_contra hK0
        have : K = 0 := by omega
        subst this
        norm_num at h
        omega
      have hdiv : n / 10 < 10 ^ K := by
        rw [Nat.div_lt_iff_lt_mul (by omega)]
        calc n < 10 ^ (K + 1) := h
        _ = 10 ^ K * 10 := by ring
      have := ih (n / 10) hK hdiv
      simp only [List.length_append, List.length_singleton]
      omega

/-! ### C1 development, part 2: `atom` on encoded atomic tokens -/

lemma dropWhile_eq_self_of {p : Char → Bool} {l : List Char}
    (h : ∀ c ∈ l, p c = false) : l.dropWhile p = l := by
  cases l with
  | nil => rfl
  | cons a t =>
    rw [List.dropWhile_cons]
    rw [h a (List.mem_cons_self a t)]
    simp

lemma stripWS_id {l : List Char} (h : ∀ c ∈ l, pyWS c = false) : stripWS l = l := by
  unfold stripWS
  rw [dropWhile_eq_self_of h]
  rw [dropWhile_eq_self_of (fun c hc => h c (List.mem_reverse.mp hc))]
  exact List.reverse_reverse l

lemma isDigit_not_pyWS {c : Char} (h : c.isDigit = true) : pyWS c = false := by
  rcases Bool.eq_false_or_eq_true (pyWS c) with ht | hf
  · exfalso
    unfold pyWS at ht
    simp only [Bool.or_eq_true, decide_eq_true_eq] at ht
    rcases ht with ((((h1 | h1) | h1) | h1) | h1) | h1 <;> (subst h1; exact absurd h (by decide))
  · exact hf

lemma parseDigits_none_of_mem {l : List Char} {c : Char} (hc : c ∈ l)
    (hcd : c.isDigit = false) : parseDigits l = none := by
  unfold parseDigits
  rw [if_neg]
  intro ⟨_, hall⟩
  rw [List.all_eq_true] at hall
  rw [hall c hc] at hcd
  cases hcd

/-- The characters an atomic token may use: none of them is a space, quote,
parenthesis or hash, so the tokenizer scans the token as one unit and the
boolean-lexicon branch of `atom` does not fire. -/
def AtomToken (l : List Char) : Prop :=
  l ≠ [] ∧ ∀ c ∈ l, c ≠ ' ' ∧ c ≠ '"' ∧ c ≠ '(' ∧ c ≠ ')' ∧ c ≠ '#'

lemma atomToken_of_digit_or {l : List Char} (hne : l ≠ [])
    (h : ∀ c ∈ l, c.isDigit = true ∨ c = '-' ∨ c = '.' ∨ c = '+') : AtomToken l := by
  refine ⟨hne, fun c hc => ?_⟩
  rcases h c hc with hd | rfl | rfl | rfl
  · exact ⟨isDigit_ne hd (by decide), isDigit_ne hd (by decide), isDigit_ne hd (by decide),
      isDigit_ne hd (by decide), isDigit_ne hd (by decide)⟩
  · exact ⟨by decide, by decide, by decide, by decide, by decide⟩
  · exact ⟨by decide, by decide, by decide, by decide, by decide⟩
  · exact ⟨by decide, by decide, by decide, by decide, by decide⟩

lemma intRepr_chars (n : Int) :
    ∀ c ∈ intRepr n, c.isDigit = true ∨ c = '-' ∨ c = '.' ∨ c = '+' := by
  unfold intRepr
  split
  · intro c hc
    rcases List.mem_cons.mp hc with rfl | h
    · right; left; rfl
    · left; exact natDigits_all_digits _ c h
  · intro c hc
    left; exact natDigits_all_digits _ c hc

lemma intRepr_ne_nil (n : Int) : intRepr n ≠ [] := by
  unfold intRepr
  split
  · simp
  · exact natDigits_ne_nil _

lemma atomToken_intRepr (n : Int) : AtomToken (intRepr n) :=
  atomToken_of_digit_or (intRepr_ne_nil n) (intRepr_chars n)

lemma no_ws_of_digit_or {l : List Char}
    (h : ∀ c ∈ l, c.isDigit = true ∨ c = '-' ∨ c = '.' ∨ c = '+') :
    ∀ c ∈ l, pyWS c = false := by
  intro c hc
  rcases h c hc with hd | rfl | rfl | rfl
  · exact isDigit_not_pyWS hd
  · decide
  · decide
  · decide

/-- `int()` succeeds on `str(n)` with value `n`. -/
lemma intParse_intRepr (n : Int) : intParse (intRepr n) = some n := by
  unfold intParse
  rw [stripWS_id (no_ws_of_digit_or (intRepr_chars n))]
  unfold intRepr
  split
  · next hneg =>
    dsimp only
    simp only [List.head?_cons]
    rw [if_pos trivial]
    simp only [List.drop_succ_cons, List.drop_zero]
    rw [parseDigits_natDigits]
    simp only [Option.map_some']
    congr 1
    simp only [Int.ofNat_eq_natCast]
    omega
  · next hpos =>
    cases h : natDigits n.natAbs with
    | nil => exact absurd h (natDigits_ne_nil _)
    | cons d rest =>
      have hdd : d.isDigit = true := by
        apply natDigits_all_digits n.natAbs
        rw [h]
        exact List.mem_cons_self d rest
      dsimp only
      rw [if_neg, if_neg]
      · rw [← h, parseDigits_natDigits]
        simp only [Option.map_some']
        congr 1
        simp only [Int.ofNat_eq_natCast]
        omega
      · simp only [List.head?_cons]
        intro hcc
        injection hcc with hcc
        exact isDigit_ne hdd (by decide) hcc
      · simp only [List.head?_cons]
        intro hcc
        injection hcc with hcc
        exact isDigit_ne hdd (by decide) hcc

/-- `atom` decodes `str(n)` to the integer `n`. -/
lemma atom_intRepr (n : Int) : atom (intRepr n) = .ok (.int n) := by
  obtain ⟨hne, hchars⟩ := atomToken_intRepr n
  cases h : intRepr n with
  | nil => exact absurd h hne
  | cons d rest =>
    have hd := hchars d (by rw [h]; exact List.mem_cons_self d rest)
    unfold atom
    dsimp only
    rw [if_neg, if_neg]
    · rw [← h, intParse_intRepr]
    · intro ⟨h1, _⟩
      exact hd.2.1 h1
    · intro ⟨h1, _⟩
      exact hd.2.2.2.2 h1

/-! ### C1 development, part 3: `atom` on encoded float tokens -/

lemma pow10exp_dvd {d k : Nat} (h : pow10exp d = some k) : d ∣ 10 ^ k := by
  unfold pow10exp at h
  have hp := List.find?_some h
  apply Nat.dvd_of_mod_eq_zero
  simpa using hp

lemma findChar_append_first (A : List Char) (x : Char) (r : List Char)
    (h : ∀ c ∈ A, c ≠ x) : findChar x (A ++ x :: r) = some A.length := by
  induction A with
  | nil =>
    simp [findChar]
  | cons a A' ih =>
    rw [List.cons_append]
    rw [findChar]
    rw [if_neg]
    · rw [ih (fun c hc => h c (List.mem_cons_of_mem a hc))]
      rfl
    · exact h a (List.mem_cons_self a A')

/-- Shared shape of `floatRepr q` once `pow10exp q.den = some k` is known:
sign, integer digits, dot, padded fractional digits. -/
lemma floatRepr_eq (q : ℚ) (k : Nat) (hk : pow10exp q.den = some k) :
    floatRepr q = (if q.num < 0 then ['-'] else []) ++
      natDigits (q.num.natAbs * (10 ^ max k 1 / q.den) / 10 ^ max k 1) ++
      '.' :: (List.replicate (max k 1 -
          (natDigits (q.num.natAbs * (10 ^ max k 1 / q.den) % 10 ^ max k 1)).length) '0'
        ++ natDigits (q.num.natAbs * (10 ^ max k 1 / q.den) % 10 ^ max k 1)) := by
  unfold floatRepr
  rw [hk]

lemma floatRepr_chars (q : ℚ) (k : Nat) (hk : pow10exp q.den = some k) :
    ∀ c ∈ floatRepr q, c.isDigit = true ∨ c = '-' ∨ c = '.' ∨ c = '+' := by
  rw [floatRepr_eq q k hk]
  intro c hc
  rw [List.append_assoc] at hc
  rcases List.mem_append.mp hc with h | h
  · split at h
    · simp only [List.mem_singleton] at h
      subst h
      right; left; rfl
    · cases h
  · rcases List.mem_append.mp h with h2 | h2
    · left; exact natDigits_all_digits _ c h2
    · rcases List.mem_cons.mp h2 with rfl | h3
      · right; right; left; rfl
      · rcases List.mem_append.mp h3 with h4 | h4
        · rw [List.eq_of_mem_replicate h4]
          left; decide
        · left; exact natDigits_all_digits _ c h4

lemma floatRepr_ne_nil (q : ℚ) (k : Nat) (hk : pow10exp q.den = some k) :
    floatRepr q ≠ [] := by
  rw [floatRepr_eq q k hk]
  intro hc
  rcases List.append_eq_nil.mp hc with ⟨h2, _⟩
  rcases List.append_eq_nil.mp h2 with ⟨_, h3⟩
  exact natDigits_ne_nil _ h3

lemma atomToken_floatRepr (q : ℚ) (k : Nat) (hk : pow10exp q.den = some k) :
    AtomToken (floatRepr q) :=
  atomToken_of_digit_or (floatRepr_ne_nil q k hk) (floatRepr_chars q k hk)

/-- The final rational identity: scaling the numerator by `E / den` and
taking the denominator `E` recovers `q` whenever `den ∣ E`. -/
lemma mkRat_scale (q : ℚ) (E : Nat) (hE : E ≠ 0) (hdvd : q.den ∣ E) :
    mkRat (q.num * Int.ofNat (E / q.den)) E = q := by
  have hden : (q.den : ℚ) ≠ 0 := Nat.cast_ne_zero.mpr q.den_nz
  have hEq : (E : ℚ) ≠ 0 := Nat.cast_ne_zero.mpr hE
  rw [Rat.mkRat_eq_div]
  have hcast : ((E / q.den : Nat) : ℚ) = (E : ℚ) / (q.den : ℚ) := Nat.cast_div hdvd hden
  have h1 : ((q.num * Int.ofNat (E / q.den) : Int) : ℚ) = (q.num : ℚ) * ((E : ℚ) / (q.den : ℚ)) := by
    push_cast [← hcast]
    rfl
  rw [h1]
  calc (q.num : ℚ) * ((E : ℚ) / (q.den : ℚ)) / (E : ℚ)
      = (q.num : ℚ) / (q.den : ℚ) * ((E : ℚ) / (E : ℚ)) := by ring
    _ = (q.num : ℚ) / (q.den : ℚ) := by rw [div_self hEq, mul_one]
    _ = q := Rat.num_div_den q

lemma floatParse_shape_pos (A F : List Char) (hA : A ≠ [])
    (hAd : ∀ c ∈ A, c.isDigit = true) (hFd : ∀ c ∈ F, c.isDigit = true) :
    floatParse (A ++ '.' :: F) =
      some (mkRat (1 * Int.ofNat (natVal A * 10 ^ F.length + natVal F)) (10 ^ F.length)) := by
  have hnws : ∀ c ∈ A ++ '.' :: F, pyWS c = false := by
    intro c hc
    rcases List.mem_append.mp hc with h | h
    · exact isDigit_not_pyWS (hAd c h)
    · rcases List.mem_cons.mp h with rfl | h3
      · decide
      · exact isDigit_not_pyWS (hFd c h3)
  have hfind : findChar '.' (A ++ '.' :: F) = some A.length :=
    findChar_append_first A '.' F (fun c hc => isDigit_ne (hAd c hc) (by decide))
  have htake : (A ++ '.' :: F).take A.length = A := List.take_left A ('.' :: F)
  have hdrop : (A ++ '.' :: F).drop (A.length + 1) = F := by
    have h1 : A ++ '.' :: F = (A ++ ['.']) ++ F := by simp
    rw [h1, show A.length + 1 = (A ++ ['.']).length from by simp]
    exact List.drop_left _ _
  obtain ⟨a, A', rfl⟩ : ∃ a A', A = a :: A' := by
    cases A with
    | nil => exact absurd rfl hA
    | cons x xs => exact ⟨x, xs, rfl⟩
  have ha : a.isDigit = true := hAd a (List.mem_cons_self a A')
  unfold floatParse
  dsimp only
  rw [stripWS_id hnws]
  rw [List.cons_append, List.head?_cons]
  have hor : ¬ ((some a = some '-') ∨ (some a = some '+')) := by
    intro hor
    rcases hor with hcc | hcc
    · exact isDigit_ne ha (by decide) (Option.some.inj hcc)
    · exact isDigit_ne ha (by decide) (Option.some.inj hcc)
  rw [if_neg (fun hcc => isDigit_ne ha (by decide) (Option.some.inj hcc)), if_neg hor]
  rw [← List.cons_append, hfind]
  dsimp only
  rw [htake, hdrop]
  rw [if_pos ⟨List.all_eq_true.mpr hAd, List.all_eq_true.mpr hFd, Or.inl hA⟩]

lemma floatParse_shape_neg (A F : List Char) (hA : A ≠ [])
    (hAd : ∀ c ∈ A, c.isDigit = true) (hFd : ∀ c ∈ F, c.isDigit = true) :
    floatParse ('-' :: (A ++ '.' :: F)) =
      some (mkRat (-1 * Int.ofNat (natVal A * 10 ^ F.length + natVal F)) (10 ^ F.length)) := by
  have hnws : ∀ c ∈ '-' :: (A ++ '.' :: F), pyWS c = false := by
    intro c hc
    rcases List.mem_cons.mp hc with rfl | h
    · decide
    · rcases List.mem_append.mp h with h2 | h2
      · exact isDigit_not_pyWS (hAd c h2)
      · rcases List.mem_cons.mp h2 with rfl | h3
        · decide
        · exact isDigit_not_pyWS (hFd c h3)
  have hfind : findChar '.' (A ++ '.' :: F) = some A.length :=
    findChar_append_first A '.' F (fun c hc => isDigit_ne (hAd c hc) (by decide))
  have htake : (A ++ '.' :: F).take A.length = A := List.take_left A ('.' :: F)
  have hdrop : (A ++ '.' :: F).drop (A.length + 1) = F := by
    have h1 : A ++ '.' :: F = (A ++ ['.']) ++ F := by simp
    rw [h1, show A.length + 1 = (A ++ ['.']).length from by simp]
    exact List.drop_left _ _
  unfold floatParse
  dsimp only
  rw [stripWS_id hnws]
  rw [List.head?_cons]
  rw [if_pos rfl, if_pos (Or.inl rfl)]
  simp only [List.drop_succ_cons, List.drop_zero]
  rw [hfind]
  dsimp only
  rw [htake, hdrop]
  rw [if_pos ⟨List.all_eq_true.mpr hAd, List.all_eq_true.mpr hFd, Or.inl hA⟩]

lemma intParse_shape_pos_none (A F : List Char) (hAd : ∀ c ∈ A, c.isDigit = true)
    (hFd : ∀ c ∈ F, c.isDigit = true) :
    intParse (A ++ '.' :: F) = none := by
  have hnws : ∀ c ∈ A ++ '.' :: F, pyWS c = false := by
    intro c hc
    rcases List.mem_append.mp hc with h | h
    · exact isDigit_not_pyWS (hAd c h)
    · rcases List.mem_cons.mp h with rfl | h3
      · decide
      · exact isDigit_not_pyWS (hFd c h3)
  have hdot : '.' ∈ A ++ '.' :: F := List.mem_append_right A (List.mem_cons_self _ F)
  unfold intParse
  dsimp only
  rw [stripWS_id hnws]
  cases hA : A with
  | nil =>
    rw [List.nil_append, List.head?_cons]
    rw [if_neg (by decide), if_neg (by decide)]
    rw [parseDigits_none_of_mem (List.mem_cons_self '.' F) (by decide)]
    rfl
  | cons a A' =>
    have ha : a.isDigit = true := hAd a (by rw [hA]; exact List.mem_cons_self a A')
    rw [List.cons_append, List.head?_cons]
    rw [if_neg (fun hcc => isDigit_ne ha (by decide) (Option.some.inj hcc))]
    rw [if_neg (fun hcc => isDigit_ne ha (by decide) (Option.some.inj hcc))]
    rw [← List.cons_append, ← hA]
    rw [parseDigits_none_of_mem hdot (by decide)]
    rfl

lemma intParse_shape_neg_none (A F : List Char) (hAd : ∀ c ∈ A, c.isDigit = true)
    (hFd : ∀ c ∈ F, c.isDigit = true) :
    intParse ('-' :: (A ++ '.' :: F)) = none := by
  have hnws : ∀ c ∈ '-' :: (A ++ '.' :: F), pyWS c = false := by
    intro c hc
    rcases List.mem_cons.mp hc with rfl | h
    · decide
    · rcases List.mem_append.mp h with h2 | h2
      · exact isDigit_not_pyWS (hAd c h2)
      · rcases List.mem_cons.mp h2 with rfl | h3
        · decide
        · exact isDigit_not_pyWS (hFd c h3)
  have hdot : '.' ∈ A ++ '.' :: F := List.mem_append_right A (List.mem_cons_self _ F)
  unfold intParse
  dsimp only
  rw [stripWS_id hnws]
  rw [List.head?_cons]
  rw [if_pos rfl]
  simp only [List.drop_succ_cons, List.drop_zero]
  rw [parseDigits_none_of_mem hdot (by decide)]
  rfl

lemma floatRepr_parse_setup (q : ℚ) (k : Nat) (hk : pow10exp q.den = some k) :
    q.den ∣ 10 ^ max k 1 ∧ 0 < 10 ^ max k 1 := by
  constructor
  · exact dvd_trans (pow10exp_dvd hk) (pow_dvd_pow 10 (le_max_left k 1))
  · exact pow_pos (by omega) _

/-- `float()` recovers `q` from `str(q)` (the decimal repr round-trip). -/
lemma floatParse_floatRepr (q : ℚ) (k : Nat) (hk : pow10exp q.den = some k) :
    floatParse (floatRepr q) = some q := by
  obtain ⟨hdvd, hEpos⟩ := floatRepr_parse_setup q k hk
  rw [floatRepr_eq q k hk]
  have hfdlen : (natDigits (q.num.natAbs * (10 ^ max k 1 / q.den) % 10 ^ max k 1)).length ≤ max k 1 :=
    natDigits_length_le (max k 1) _ (le_max_right k 1) (Nat.mod_lt _ hEpos)
  have hFlen : (List.replicate (max k 1 -
      (natDigits (q.num.natAbs * (10 ^ max k 1 / q.den) % 10 ^ max k 1)).length) '0'
      ++ natDigits (q.num.natAbs * (10 ^ max k 1 / q.den) % 10 ^ max k 1)).length = max k 1 := by
    rw [List.length_append, List.length_replicate]
    omega
  have hFd : ∀ c ∈ List.replicate (max k 1 -
      (natDigits (q.num.natAbs * (10 ^ max k 1 / q.den) % 10 ^ max k 1)).length) '0'
      ++ natDigits (q.num.natAbs * (10 ^ max k 1 / q.den) % 10 ^ max k 1), c.isDigit = true := by
    intro c hc
    rcases List.mem_append.mp hc with h | h
    · rw [List.eq_of_mem_replicate h]; decide
    · exact natDigits_all_digits _ c h
  have hFval : natVal (List.replicate (max k 1 -
      (natDigits (q.num.natAbs * (10 ^ max k 1 / q.den) % 10 ^ max k 1)).length) '0'
      ++ natDigits (q.num.natAbs * (10 ^ max k 1 / q.den) % 10 ^ max k 1)) =
      q.num.natAbs * (10 ^ max k 1 / q.den) % 10 ^ max k 1 := by
    rw [natVal_zeros_append, natVal_natDigits]
  have hsum : q.num.natAbs * (10 ^ max k 1 / q.den) / 10 ^ max k 1 * 10 ^ max k 1 +
      q.num.natAbs * (10 ^ max k 1 / q.den) % 10 ^ max k 1 =
      q.num.natAbs * (10 ^ max k 1 / q.den) := by
    have h1 := Nat.div_add_mod (q.num.natAbs * (10 ^ max k 1 / q.den)) (10 ^ max k 1)
    have h2 : q.num.natAbs * (10 ^ max k 1 / q.den) / 10 ^ max k 1 * 10 ^ max k 1 =
        10 ^ max k 1 * (q.num.natAbs * (10 ^ max k 1 / q.den) / 10 ^ max k 1) :=
      Nat.mul_comm _ _
    omega
  by_cases hneg : q.num < 0
  · rw [if_pos hneg]
    rw [show (['-'] ++ natDigits (q.num.natAbs * (10 ^ max k 1 / q.den) / 10 ^ max k 1)) =
        '-' :: natDigits (q.num.natAbs * (10 ^ max k 1 / q.den) / 10 ^ max k 1) from rfl]
    rw [List.cons_append]
    rw [floatParse_shape_neg _ _ (natDigits_ne_nil _) (natDigits_all_digits _) hFd]
    rw [hFlen, natVal_natDigits, hFval, hsum]
    have hofnat : (-1 : Int) * Int.ofNat (q.num.natAbs * (10 ^ max k 1 / q.den)) =
        q.num * Int.ofNat (10 ^ max k 1 / q.den) := by
      simp only [Int.ofNat_eq_natCast]
      push_cast
      rw [abs_of_neg hneg]
      ring
    rw [hofnat, mkRat_scale q _ (Nat.pos_iff_ne_zero.mp hEpos) hdvd]
  · rw [if_neg hneg, List.nil_append]
    rw [floatParse_shape_pos _ _ (natDigits_ne_nil _) (natDigits_all_digits _) hFd]
    rw [hFlen, natVal_natDigits, hFval, hsum]
    have hofnat : (1 : Int) * Int.ofNat (q.num.natAbs * (10 ^ max k 1 / q.den)) =
        q.num * Int.ofNat (10 ^ max k 1 / q.den) := by
      simp only [Int.ofNat_eq_natCast]
      push_cast
      rw [abs_of_nonneg (by omega : (0 : Int) ≤ q.num)]
      ring
    rw [hofnat, mkRat_scale q _ (Nat.pos_iff_ne_zero.mp hEpos) hdvd]

/-- `int()` fails on `str(q)` for a float `q` (the token contains a dot). -/
lemma intParse_floatRepr (q : ℚ) (k : Nat) (hk : pow10exp q.den = some k) :
    intParse (floatRepr q) = none := by
  rw [floatRepr_eq q k hk]
  have hFd : ∀ c ∈ List.replicate (max k 1 -
      (natDigits (q.num.natAbs * (10 ^ max k 1 / q.den) % 10 ^ max k 1)).length) '0'
      ++ natDigits (q.num.natAbs * (10 ^ max k 1 / q.den) % 10 ^ max k 1), c.isDigit = true := by
    intro c hc
    rcases List.mem_append.mp hc with h | h
    · rw [List.eq_of_mem_replicate h]; decide
    · exact natDigits_all_digits _ c h
  by_cases hneg : q.num < 0
  · rw [if_pos hneg]
    rw [show (['-'] ++ natDigits (q.num.natAbs * (10 ^ max k 1 / q.den) / 10 ^ max k 1)) =
        '-' :: natDigits (q.num.natAbs * (10 ^ max k 1 / q.den) / 10 ^ max k 1) from rfl]
    rw [List.cons_append]
    exact intParse_shape_neg_none _ _ (natDigits_all_digits _) hFd
  · rw [if_neg hneg, List.nil_append]
    exact intParse_shape_pos_none _ _ (natDigits_all_digits _) hFd

/-- `atom` decodes `str(q)` to the float `q`. -/
lemma atom_floatRepr (q : ℚ) (k : Nat) (hk : pow10exp q.den = some k) :
    atom (floatRepr q) = .ok (.float q) := by
  obtain ⟨hne, hchars⟩ := atomToken_floatRepr q k hk
  cases h : floatRepr q with
  | nil => exact absurd h hne
  | cons d rest =>
    have hd := hchars d (by rw [h]; exact List.mem_cons_self d rest)
    unfold atom
    dsimp only
    rw [if_neg, if_neg]
    · rw [← h, intParse_floatRepr q k hk]
      dsimp only
      rw [floatParse_floatRepr q k hk]
    · intro ⟨h1, _⟩
      exact hd.2.1 h1
    · intro ⟨h1, _⟩
      exact hd.2.2.2.2 h1

/-- `atom` on the boolean lexicon. -/
lemma atom_bool (b : Bool) : atom (if b then ['#', 't'] else ['#', 'f']) = .ok (.bool b) := by
  cases b <;> rfl

/-! ### C1 development, part 4: the tuple-end scanner on encoded content -/

lemma findChar_lt_length {c : Char} : ∀ {l : List Char} {v : Nat},
    findChar c l = some v → v < l.length := by
  intro l
  induction l with
  | nil => intro v h; cases h
  | cons b t ih =>
    intro v h
    rw [findChar] at h
    split at h
    · cases h
      simp
    · cases hf : findChar c t with
      | none => rw [hf] at h; cases h
      | some w =>
        rw [hf] at h
        injection h with h
        subst h
        have := ih hf
        simp only [List.length_cons]
        omega

lemma bfind_cons_succ (a : Char) (t : Bytes) (c : Char) (s : Nat) :
    bfind (a :: t) c (s + 1) = (bfind t c s).map (· + 1) := by
  unfold bfind
  rw [List.drop_succ_cons]
  cases findChar c (t.drop s) with
  | none => rfl
  | some v => rfl

lemma bfind_lower {bs : Bytes} {c : Char} {s p : Nat} (h : bfind bs c s = some p) : s ≤ p := by
  unfold bfind at h
  cases hf : findChar c (bs.drop s) with
  | none => rw [hf] at h; cases h
  | some v =>
    rw [hf] at h
    simp only [Option.map_some'] at h
    injection h with h
    omega

lemma bfind_lt_length {bs : Bytes} {c : Char} {s p : Nat} (h : bfind bs c s = some p) :
    p < bs.length := by
  unfold bfind at h
  cases hf : findChar c (bs.drop s) with
  | none => rw [hf] at h; cases h
  | some v =>
    rw [hf] at h
    simp only [Option.map_some'] at h
    injection h with h
    have hv := findChar_lt_length hf
    rw [List.length_drop] at hv
    omega

lemma ftGo_shift : ∀ (fuel : Nat) (t : Bytes) (a : Char) (pos : Nat) (opn : Int),
    ftGo (a :: t) fuel (pos + 1) opn = (ftGo t fuel pos opn).map (· + 1) := by
  intro fuel
  induction fuel with
  | zero => intro t a pos opn; rfl
  | succ f ih =>
    intro t a pos opn
    rw [ftGo, ftGo]
    by_cases h : pos < t.length
    · rw [dif_pos h, dif_pos (show pos + 1 < (a :: t).length by simpa using Nat.succ_lt_succ h)]
      rw [show (a :: t).get ⟨pos + 1, by simpa using Nat.succ_lt_succ h⟩ = t.get ⟨pos, h⟩ from rfl]
      by_cases hc1 : t.get ⟨pos, h⟩ = ')'
      · rw [if_pos hc1, if_pos hc1]
        by_cases ho : opn - 1 = 0
        · rw [if_pos ho, if_pos ho]
          rfl
        · rw [if_neg ho, if_neg ho]
          exact ih t a (pos + 1) (opn - 1)
      · rw [if_neg hc1, if_neg hc1]
        by_cases hc2 : t.get ⟨pos, h⟩ = '('
        · rw [if_pos hc2, if_pos hc2]
          exact ih t a (pos + 1) (opn + 1)
        · rw [if_neg hc2, if_neg hc2]
          by_cases hc3 : t.get ⟨pos, h⟩ = '"'
          · rw [if_pos hc3, if_pos hc3]
            rw [show pos + 1 + 1 = (pos + 1) + 1 from rfl, bfind_cons_succ]
            cases hb : bfind t '"' (pos + 1) with
            | none => rfl
            | some p =>
              simp only [Option.map_some']
              exact ih t a (p + 1) opn
          · rw [if_neg hc3, if_neg hc3]
            exact ih t a (pos + 1) opn
    · rw [dif_neg h, dif_neg (show ¬ pos + 1 < (a :: t).length by simp; omega)]
      rfl

lemma ftGo_suff : ∀ (f1 : Nat) (bs : Bytes) (pos : Nat) (opn : Int) (f2 : Nat),
    bs.length - pos < f1 → bs.length - pos < f2 →
    ftGo bs f1 pos opn = ftGo bs f2 pos opn := by
  intro f1
  induction f1 using Nat.strong_induction_on with
  | _ f1 ih =>
    intro bs pos opn f2 h1 h2
    match f1, h1 with
    | f1 + 1, _ =>
      match f2, h2 with
      | f2 + 1, _ =>
        rw [ftGo, ftGo]
        by_cases h : pos < bs.length
        · rw [dif_pos h, dif_pos h]
          by_cases hc1 : bs.get ⟨pos, h⟩ = ')'
          · rw [if_pos hc1, if_pos hc1]
            by_cases ho : opn - 1 = 0
            · rw [if_pos ho, if_pos ho]
            · rw [if_neg ho, if_neg ho]
              exact ih f1 (by omega) bs (pos + 1) (opn - 1) f2 (by omega) (by omega)
          · rw [if_neg hc1, if_neg hc1]
            by_cases hc2 : bs.get ⟨pos, h⟩ = '('
            · rw [if_pos hc2, if_pos hc2]
              exact ih f1 (by omega) bs (pos + 1) (opn + 1) f2 (by omega) (by omega)
            · rw [if_neg hc2, if_neg hc2]
              by_cases hc3 : bs.get ⟨pos, h⟩ = '"'
              · rw [if_pos hc3, if_pos hc3]
                cases hb : bfind bs '"' (pos + 1) with
                | none => rfl
                | some p =>
                  have hp1 := bfind_lower hb
                  have hp2 := bfind_lt_length hb
                  exact ih f1 (by omega) bs (p + 1) opn f2 (by omega) (by omega)
              · rw [if_neg hc3, if_neg hc3]
                exact ih f1 (by omega) bs (pos + 1) opn f2 (by omega) (by omega)
        · rw [dif_neg h, dif_neg h]

lemma ftGo_drop : ∀ (pos : Nat) (bs : Bytes) (fuel : Nat) (opn : Int),
    ftGo bs fuel pos opn = (ftGo (bs.drop pos) fuel 0 opn).map (· + pos) := by
  intro pos
  induction pos with
  | zero =>
    intro bs fuel opn
    rw [List.drop_zero]
    cases ftGo bs fuel 0 opn <;> simp
  | succ p ih =>
    intro bs fuel opn
    cases bs with
    | nil =>
      cases fuel with
      | zero => rfl
      | succ f =>
        rw [List.drop_nil, ftGo, ftGo]
        rw [dif_neg (by simp), dif_neg (by simp)]
        simp
    | cons a t =>
      rw [List.drop_succ_cons, ftGo_shift, ih t fuel opn]
      cases ftGo (t.drop p) fuel 0 opn with
      | none => rfl
      | some v => rfl

/-- Proof abbreviation: the scanning loop on a standalone buffer with the
wrapper's fuel. -/
def scanW (X : Bytes) (opn : Int) : Option Nat := ftGo X (X.length + 1) 0 opn

lemma ftGo_to_scanW (X : Bytes) (fuel : Nat) (opn : Int) (h : X.length < fuel) :
    ftGo X fuel 0 opn = scanW X opn :=
  ftGo_suff fuel X 0 opn (X.length + 1) (by omega) (by omega)

/-- Scanning passes through `X` without terminating inside it and without a
net depth change, for any positive entry depth: the scan of `X ++ rest`
continues into `rest` at the same depth, all positions shifted by
`X.length`.  This is the invariant satisfied by every encoded value. -/
def ScansThrough (X : Bytes) : Prop :=
  ∀ (opn : Int) (rest : Bytes), 1 ≤ opn →
    scanW (X ++ rest) opn = (scanW rest opn).map (· + X.length)

lemma scansThrough_nil : ScansThrough [] := by
  intro opn rest h
  rw [List.nil_append]
  cases scanW rest opn with
  | none => rfl
  | some v => simp

lemma scansThrough_append {X Y : Bytes} (hX : ScansThrough X) (hY : ScansThrough Y) :
    ScansThrough (X ++ Y) := by
  intro opn rest h
  rw [List.append_assoc, hX opn (Y ++ rest) h, hY opn rest h]
  cases scanW rest opn with
  | none => rfl
  | some v =>
    simp only [Option.map_some']
    rw [List.length_append]
    congr 1
    omega

lemma scansThrough_char (c : Char) (h1 : c ≠ '(') (h2 : c ≠ ')') (h3 : c ≠ '"') :
    ScansThrough [c] := by
  intro opn rest h
  rw [List.singleton_append]
  unfold scanW
  rw [show ftGo rest (List.length rest + 1) 0 opn = scanW rest opn from rfl]
  rw [ftGo]
  rw [dif_pos (by simp : 0 < (c :: rest).length)]
  rw [show (c :: rest).get ⟨0, by simp⟩ = c from rfl]
  rw [if_neg h2, if_neg h1, if_neg h3]
  rw [ftGo_shift]
  rw [ftGo_to_scanW rest ((c :: rest).length) opn (by simp)]
  rfl

lemma scansThrough_string (s : List Char) (hs : ∀ c ∈ s, c ≠ '"') :
    ScansThrough ('"' :: s ++ ['"']) := by
  intro opn rest h
  have hshape : ('"' :: s ++ ['"']) ++ rest = '"' :: (s ++ '"' :: rest) := by simp
  rw [hshape]
  unfold scanW
  rw [show ftGo rest (List.length rest + 1) 0 opn = scanW rest opn from rfl]
  rw [ftGo]
  rw [dif_pos (by simp : 0 < ('"' :: (s ++ '"' :: rest)).length)]
  rw [show ('"' :: (s ++ '"' :: rest)).get ⟨0, by simp⟩ = '"' from rfl]
  rw [if_neg (by decide), if_neg (by decide), if_pos rfl]
  have hbf : bfind ('"' :: (s ++ '"' :: rest)) '"' (0 + 1) = some (s.length + 1) := by
    rw [show (0 : Nat) + 1 = 1 from rfl]
    unfold bfind
    rw [List.drop_succ_cons, List.drop_zero]
    rw [findChar_append_first s '"' rest hs]
    rfl
  rw [hbf]
  dsimp only
  have hdrop : ('"' :: (s ++ '"' :: rest)).drop (s.length + 1 + 1) = rest := by
    rw [show '"' :: (s ++ '"' :: rest) = ('"' :: s ++ ['"']) ++ rest by simp]
    rw [show s.length + 1 + 1 = ('"' :: s ++ ['"']).length by simp]
    exact List.drop_left _ _
  rw [ftGo_drop (s.length + 1 + 1)]
  rw [hdrop]
  rw [ftGo_to_scanW rest (('"' :: (s ++ '"' :: rest)).length) opn (by simp only [List.length_cons, List.length_append]; omega)]
  cases scanW rest opn with
  | none => rfl
  | some v =>
    simp only [Option.map_some', List.length_append, List.length_cons,
      List.length_singleton, List.length_nil]
    all_goals (congr 1 <;> omega)

lemma scansThrough_parens {X : Bytes} (hX : ScansThrough X) :
    ScansThrough ('(' :: X ++ [')']) := by
  intro opn rest h
  have hshape : ('(' :: X ++ [')']) ++ rest = '(' :: (X ++ ')' :: rest) := by simp
  rw [hshape]
  have hinner : scanW (')' :: rest) (opn + 1) = (scanW rest opn).map (· + 1) := by
    unfold scanW
    rw [show ftGo rest (List.length rest + 1) 0 opn = scanW rest opn from rfl]
    rw [ftGo]
    rw [dif_pos (by simp : 0 < (')' :: rest).length)]
    rw [show (')' :: rest).get ⟨0, by simp⟩ = ')' from rfl]
    rw [if_pos rfl]
    rw [if_neg (by omega : ¬ opn + 1 - 1 = 0)]
    rw [show opn + 1 - 1 = opn from by omega]
    rw [ftGo_shift]
    rw [ftGo_to_scanW rest ((')' :: rest).length) opn (by simp)]
  unfold scanW
  rw [show ftGo rest (List.length rest + 1) 0 opn = scanW rest opn from rfl]
  rw [ftGo]
  rw [dif_pos (by simp : 0 < ('(' :: (X ++ ')' :: rest)).length)]
  rw [show ('(' :: (X ++ ')' :: rest)).get ⟨0, by simp⟩ = '(' from rfl]
  rw [if_neg (by decide), if_pos rfl]
  rw [ftGo_drop (0 + 1)]
  rw [show ('(' :: (X ++ ')' :: rest)).drop (0 + 1) = X ++ ')' :: rest from rfl]
  rw [ftGo_to_scanW (X ++ ')' :: rest) (('(' :: (X ++ ')' :: rest)).length) (opn + 1) (by simp only [List.length_cons, List.length_append]; omega)]
  rw [hX (opn + 1) (')' :: rest) (by omega)]
  rw [hinner]
  cases scanW rest opn with
  | none => rfl
  | some v =>
    simp only [Option.map_some', List.length_append, List.length_cons,
      List.length_singleton, List.length_nil]
    all_goals (congr 1 <;> omega)

/-- The matching close parenthesis of an encoded tuple: `_find_tuple_end`
on `'(' :: X ++ ')' :: rest` from position `0` returns `X.length + 2`. -/
lemma find_tuple_end_encoded {X : Bytes} (rest : Bytes) (hX : ScansThrough X) :
    _find_tuple_end ('(' :: (X ++ ')' :: rest)) 0 = .ok (X.length + 2) := by
  have hclose : scanW (')' :: rest) 1 = some 0 := by
    unfold scanW
    rw [ftGo]
    rw [dif_pos (by simp : 0 < (')' :: rest).length)]
    rw [show (')' :: rest).get ⟨0, by simp⟩ = ')' from rfl]
    rw [if_pos rfl, if_pos (by omega : (1 : Int) - 1 = 0)]
  have hscan : ftGo ('(' :: (X ++ ')' :: rest)) (('(' :: (X ++ ')' :: rest)).length + 1)
      (0 + 1) 1 = some (X.length + 1) := by
    rw [ftGo_drop (0 + 1)]
    rw [show ('(' :: (X ++ ')' :: rest)).drop (0 + 1) = X ++ ')' :: rest from rfl]
    rw [ftGo_to_scanW (X ++ ')' :: rest) _ 1 (by simp only [List.length_cons, List.length_append]; omega)]
    rw [hX 1 (')' :: rest) (by omega)]
    rw [hclose]
    simp only [Option.map_some']
    congr 1
    omega
  unfold _find_tuple_end
  rw [hscan]

/-! ### C1 development, part 5: the tokenising loop -/

/-- The scanning loop never returns a position below its starting one. -/
lemma ftGo_lower : ∀ (fuel : Nat) (bs : Bytes) (pos : Nat) (opn : Int) (p : Nat),
    ftGo bs fuel pos opn = some p → pos ≤ p := by
  intro fuel
  induction fuel with
  | zero => intro bs pos opn p h; cases h
  | succ f ih =>
    intro bs pos opn p h
    rw [ftGo] at h
    by_cases hlt : pos < bs.length
    · rw [dif_pos hlt] at h
      by_cases hc1 : bs.get ⟨pos, hlt⟩ = ')'
      · rw [if_pos hc1] at h
        by_cases ho : opn - 1 = 0
        · rw [if_pos ho] at h
          injection h with h
          omega
        · rw [if_neg ho] at h
          have := ih bs (pos + 1) (opn - 1) p h
          omega
      · rw [if_neg hc1] at h
        by_cases hc2 : bs.get ⟨pos, hlt⟩ = '('
        · rw [if_pos hc2] at h
          have := ih bs (pos + 1) (opn + 1) p h
          omega
        · rw [if_neg hc2] at h
          by_cases hc3 : bs.get ⟨pos, hlt⟩ = '"'
          · rw [if_pos hc3] at h
            cases hb : bfind bs '"' (pos + 1) with
            | none => rw [hb] at h; cases h
            | some q =>
              rw [hb] at h
              have h1 := bfind_lower hb
              have := ih bs (q + 1) opn p h
              omega
          · rw [if_neg hc3] at h
            have := ih bs (pos + 1) opn p h
            omega
    · rw [dif_neg hlt] at h
      injection h with h
      omega

/-- Fuel sufficiency for the tokenising loop: any two fuels strictly above
the remaining buffer length give the same (successful) result. -/
lemma responseLoop_suff :
    ∀ (f1 : Nat) (bs : Bytes) (pos : Nat) (acc out : List Value) (f2 : Nat),
      bs.length - pos < f1 → bs.length - pos < f2 →
      responseLoop bs f1 pos acc = .ok out → responseLoop bs f2 pos acc = .ok out := by
  intro f1
  induction f1 using Nat.strong_induction_on with
  | _ f1 ih =>
    intro bs pos acc out f2 h1 h2 hok
    match f1, h1 with
    | f1 + 1, _ =>
      match f2, h2 with
      | f2 + 1, _ =>
        rw [responseLoop] at hok ⊢
        by_cases h : pos < bs.length
        · rw [dif_pos h] at hok ⊢
          by_cases hc1 : bs.get ⟨pos, h⟩ = '"'
          · rw [if_pos hc1] at hok ⊢
            cases hr : _find_string_end bs pos with
            | error e =>
              rw [hr] at hok
              dsimp only at hok
              cases hok
            | ok en =>
              rw [hr] at hok
              dsimp only at hok ⊢
              have hen : pos + 1 ≤ en := by
                unfold _find_string_end at hr
                cases hb : bfind bs '"' (pos + 1) with
                | none => rw [hb] at hr; cases hr
                | some p =>
                  rw [hb] at hr
                  injection hr with hr
                  have := bfind_lower hb
                  omega
              exact ih f1 (by omega) bs (en + 1) _ out f2 (by omega) (by omega) hok
          · rw [if_neg hc1] at hok ⊢
            by_cases hc2 : bs.get ⟨pos, h⟩ = '('
            · rw [if_pos hc2] at hok ⊢
              cases hr : _find_tuple_end bs pos with
              | error e =>
                rw [hr] at hok
                dsimp only at hok
                cases hok
              | ok en =>
                rw [hr] at hok
                dsimp only at hok ⊢
                have hslice : (pySlice bs (pos + 1) (en - 1)).length < bs.length - pos := by
                  unfold pySlice
                  have hlen := List.length_take (en - 1 - (pos + 1)) (bs.drop (pos + 1))
                  rw [List.length_drop] at hlen
                  simp only [hlen]
                  omega
                cases hn : responseLoop (pySlice bs (pos + 1) (en - 1)) f1 0 [] with
                | error e =>
                  rw [hn] at hok
                  dsimp only at hok
                  cases hok
                | ok inner =>
                  rw [hn] at hok
                  dsimp only at hok
                  have hn2 : responseLoop (pySlice bs (pos + 1) (en - 1)) f2 0 [] = .ok inner :=
                    ih f1 (by omega) _ 0 [] inner f2 (by omega) (by omega) hn
                  rw [hn2]
                  dsimp only
                  have hen : pos + 1 ≤ en := by
                    unfold _find_tuple_end at hr
                    cases hf : ftGo bs (bs.length + 1) (pos + 1) 1 with
                    | none => rw [hf] at hr; cases hr
                    | some p =>
                      rw [hf] at hr
                      injection hr with hr
                      have := ftGo_lower (bs.length + 1) bs (pos + 1) 1 p hf
                      omega
                  exact ih f1 (by omega) bs (en + 1) _ out f2 (by omega) (by omega) hok
            · rw [if_neg hc2] at hok ⊢
              dsimp only at hok ⊢
              cases ha : atom (pySlice bs pos (match bfind bs ' ' (pos + 1) with
                | none => bs.length
                | some p => p)) with
              | error e =>
                rw [ha] at hok
                dsimp only at hok
                cases hok
              | ok v =>
                rw [ha] at hok
                dsimp only at hok ⊢
                have hen : pos + 1 ≤ (match bfind bs ' ' (pos + 1) with
                    | none => bs.length
                    | some p => p) := by
                  cases hb : bfind bs ' ' (pos + 1) with
                  | none => dsimp only; omega
                  | some p =>
                    dsimp only
                    exact bfind_lower hb
                exact ih f1 (by omega) bs _ _ out f2 (by omega) (by omega) hok
        · rw [dif_neg h] at hok ⊢
          exact hok

lemma find_string_end_shift (a : Char) (t : Bytes) (pos en : Nat)
    (h : _find_string_end t pos = .ok en) :
    _find_string_end (a :: t) (pos + 1) = .ok (en + 1) := by
  unfold _find_string_end at h ⊢
  rw [bfind_cons_succ]
  cases hb : bfind t '"' (pos + 1) with
  | none => rw [hb] at h; cases h
  | some p =>
    rw [hb] at h
    injection h with h
    subst h
    rfl

lemma find_tuple_end_shift (a : Char) (t : Bytes) (pos en : Nat)
    (h : _find_tuple_end t pos = .ok en) :
    _find_tuple_end (a :: t) (pos + 1) = .ok (en + 1) := by
  unfold _find_tuple_end at h ⊢
  have hsuff : ftGo (a :: t) ((a :: t).length + 1) (pos + 1 + 1) 1 =
      ftGo (a :: t) (t.length + 1) (pos + 1 + 1) 1 := by
    apply ftGo_suff
    · simp only [List.length_cons]; omega
    · simp only [List.length_cons]; omega
  rw [hsuff, ftGo_shift]
  cases hf : ftGo t (t.length + 1) (pos + 1) 1 with
  | none => rw [hf] at h; cases h
  | some p =>
    rw [hf] at h
    injection h with h
    subst h
    rfl

lemma responseLoop_shift : ∀ (fuel : Nat) (t : Bytes) (a : Char) (pos : Nat) (acc out : List Value),
    responseLoop t fuel pos acc = .ok out →
    responseLoop (a :: t) fuel (pos + 1) acc = .ok out := by
  intro fuel
  induction fuel with
  | zero => intro t a pos acc out h; cases h
  | succ f ih =>
    intro t a pos acc out hok
    rw [responseLoop] at hok ⊢
    by_cases h : pos < t.length
    · rw [dif_pos h] at hok
      rw [dif_pos (show pos + 1 < (a :: t).length by simp only [List.length_cons]; omega)]
      rw [show (a :: t).get ⟨pos + 1, by simp only [List.length_cons]; omega⟩ = t.get ⟨pos, h⟩
        from rfl]
      by_cases hc1 : t.get ⟨pos, h⟩ = '"'
      · rw [if_pos hc1] at hok ⊢
        cases hr : _find_string_end t pos with
        | error e =>
          rw [hr] at hok
          dsimp only at hok
          cases hok
        | ok en =>
          rw [hr] at hok
          rw [find_string_end_shift a t pos en hr]
          dsimp only at hok ⊢
          have hslice : pySlice (a :: t) (pos + 1 + 1) (en + 1 - 1) = pySlice t (pos + 1) (en - 1) := by
            unfold pySlice
            rw [List.drop_succ_cons]
            congr 1
            omega
          rw [hslice]
          exact ih t a (en + 1) _ out hok
      · rw [if_neg hc1] at hok ⊢
        by_cases hc2 : t.get ⟨pos, h⟩ = '('
        · rw [if_pos hc2] at hok ⊢
          cases hr : _find_tuple_end t pos with
          | error e =>
            rw [hr] at hok
            dsimp only at hok
            cases hok
          | ok en =>
            rw [hr] at hok
            rw [find_tuple_end_shift a t pos en hr]
            dsimp only at hok ⊢
            have hslice : pySlice (a :: t) (pos + 1 + 1) (en + 1 - 1) = pySlice t (pos + 1) (en - 1) := by
              unfold pySlice
              rw [List.drop_succ_cons]
              congr 1
              omega
            rw [hslice]
            cases hn : responseLoop (pySlice t (pos + 1) (en - 1)) f 0 [] with
            | error e =>
              rw [hn] at hok
              dsimp only at hok
              cases hok
            | ok inner =>
              rw [hn] at hok
              dsimp only at hok ⊢
              exact ih t a (en + 1) _ out hok
        · rw [if_neg hc2] at hok ⊢
          dsimp only at hok ⊢
          have hb : bfind (a :: t) ' ' (pos + 1 + 1) = (bfind t ' ' (pos + 1)).map (· + 1) :=
            bfind_cons_succ a t ' ' (pos + 1)
          cases hbf : bfind t ' ' (pos + 1) with
          | none =>
            rw [hbf] at hok
            rw [hb, hbf]
            simp only [Option.map_none']
            dsimp only at hok ⊢
            have hslice : pySlice (a :: t) (pos + 1) (a :: t).length = pySlice t pos t.length := by
              unfold pySlice
              rw [List.drop_succ_cons]
              congr 1
              simp only [List.length_cons]
              omega
            rw [hslice]
            cases ha : atom (pySlice t pos t.length) with
            | error e =>
              rw [ha] at hok
              dsimp only at hok
              cases hok
            | ok v =>
              rw [ha] at hok
              dsimp only at hok ⊢
              rw [show (a :: t).length = t.length + 1 from by simp]
              exact ih t a (t.length + 1) _ out hok
          | some p =>
            rw [hbf] at hok
            rw [hb, hbf]
            simp only [Option.map_some']
            dsimp only at hok ⊢
            have hslice : pySlice (a :: t) (pos + 1) (p + 1) = pySlice t pos p := by
              unfold pySlice
              rw [List.drop_succ_cons]
              congr 1
              omega
            rw [hslice]
            cases ha : atom (pySlice t pos p) with
            | error e =>
              rw [ha] at hok
              dsimp only at hok
              cases hok
            | ok v =>
              rw [ha] at hok
              dsimp only at hok ⊢
              exact ih t a (p + 1) _ out hok
    · rw [dif_neg h] at hok
      rw [dif_neg (show ¬ pos + 1 < (a :: t).length by simp only [List.length_cons]; omega)]
      exact hok

/-- Proof abbreviation: the tokenising loop run as its wrapper does, with
fuel `length + 1` from position `0`. -/
def respW (bs : Bytes) (acc : List Value) : Except PyError (List Value) :=
  responseLoop bs (bs.length + 1) 0 acc

/-- A successful wrapper run of the loop on the suffix `bs.drop pos` gives
the same result as the running loop at position `pos`, for any sufficient
fuel. -/
lemma respW_to_mid : ∀ (pos : Nat) (bs : Bytes) (fuel : Nat) (acc out : List Value),
    bs.length - pos < fuel → respW (bs.drop pos) acc = .ok out →
    responseLoop bs fuel pos acc = .ok out := by
  intro pos
  induction pos with
  | zero =>
    intro bs fuel acc out hf hok
    rw [List.drop_zero] at hok
    exact responseLoop_suff (bs.length + 1) bs 0 acc out fuel (by omega) (by omega) hok
  | succ p ih =>
    intro bs fuel acc out hf hok
    cases bs with
    | nil =>
      rw [List.drop_nil] at hok
      unfold respW at hok
      rw [responseLoop] at hok
      rw [dif_neg (by simp)] at hok
      injection hok with hok
      subst hok
      match fuel, hf with
      | fuel + 1, _ =>
        rw [responseLoop]
        rw [dif_neg (by simp)]
    | cons a t =>
      rw [List.drop_succ_cons] at hok
      have := ih t fuel acc out (by simp only [List.length_cons] at hf; omega) hok
      exact responseLoop_shift fuel t a p acc out this

/-! ### C1 development, part 6: encoded values parse back to themselves -/

/-- The values `encode` accepts and the round-trip claim ranges over:
booleans, integers, floats with a finite decimal expansion (every Python
float is one), ASCII text without embedded double quotes, and nested
tuples of such values.  (Non-ASCII text raises in `value.encode('ascii')`;
a quote inside text breaks the quoting, as the spec itself notes.) -/
inductive Representable : Value → Prop
  | bool (b : Bool) : Representable (.bool b)
  | int (n : Int) : Representable (.int n)
  | float (q : ℚ) (k : Nat) (hk : pow10exp q.den = some k) : Representable (.float q)
  | str (s : String) (h : ∀ c ∈ s.data, c.toNat < 128 ∧ c ≠ '"') : Representable (.str s)
  | list (vs : List Value) (h : ∀ v ∈ vs, Representable v) : Representable (.list vs)

/-- The per-value induction package: the encoding scans as one balanced
unit, parses alone to exactly the value, and parses followed by a
separator and more input by consuming exactly itself plus the separator. -/
def StepOk (v : Value) : Prop :=
  ScansThrough (as_bytes v) ∧
  (∀ acc, respW (as_bytes v) acc = .ok (acc ++ [v])) ∧
  (∀ r acc out, respW r (acc ++ [v]) = .ok out → respW (as_bytes v ++ ' ' :: r) acc = .ok out)

lemma scansThrough_of_ordinary : ∀ (l : List Char),
    (∀ c ∈ l, c ≠ '(' ∧ c ≠ ')' ∧ c ≠ '"') → ScansThrough l := by
  intro l
  induction l with
  | nil => intro _; exact scansThrough_nil
  | cons a t ih =>
    intro h
    have ha := h a (List.mem_cons_self a t)
    rw [show a :: t = [a] ++ t from rfl]
    exact scansThrough_append (scansThrough_char a ha.1 ha.2.1 ha.2.2)
      (ih (fun c hc => h c (List.mem_cons_of_mem a hc)))

lemma findChar_none_of : ∀ (l : List Char) (x : Char),
    (∀ c ∈ l, c ≠ x) → findChar x l = none := by
  intro l x
  induction l with
  | nil => intro _; rfl
  | cons b t ih =>
    intro h
    rw [findChar, if_neg (h b (List.mem_cons_self b t))]
    rw [ih (fun c hc => h c (List.mem_cons_of_mem b hc))]
    rfl

lemma bfind_none_of {l : List Char} {x : Char} (h : ∀ c ∈ l, c ≠ x) (s : Nat) :
    bfind l x s = none := by
  unfold bfind
  rw [findChar_none_of _ x (fun c hc => h c (List.mem_of_mem_drop hc))]
  rfl

/-- `responseLoop` exits with its accumulator once the position passes the
end of the buffer (for any nonzero fuel). -/
lemma responseLoop_exit (bs : Bytes) (fuel pos : Nat) (acc : List Value)
    (hpos : bs.length ≤ pos) (hf : 0 < fuel) :
    responseLoop bs fuel pos acc = .ok acc := by
  match fuel, hf with
  | fuel + 1, _ =>
    rw [responseLoop]
    rw [dif_neg (by omega)]

lemma stepOk_atomToken (v : Value) (hne : as_bytes v ≠ [])
    (hch : ∀ c ∈ as_bytes v, c ≠ ' ' ∧ c ≠ '"' ∧ c ≠ '(')
    (hatom : atom (as_bytes v) = .ok v) (hscan : ScansThrough (as_bytes v)) : StepOk v := by
  refine ⟨hscan, ?_, ?_⟩
  · intro acc
    cases htok : as_bytes v with
    | nil => exact absurd htok hne
    | cons d rest =>
      rw [htok] at hch hatom
      have hd := hch d (List.mem_cons_self d rest)
      unfold respW
      rw [responseLoop]
      rw [dif_pos (by simp : 0 < (d :: rest).length)]
      rw [show (d :: rest).get ⟨0, by simp⟩ = d from rfl]
      rw [if_neg hd.2.1, if_neg hd.2.2]
      dsimp only
      rw [bfind_none_of (fun c hc => (hch c hc).1) 1]
      dsimp only
      rw [show pySlice (d :: rest) 0 (d :: rest).length = d :: rest from by
        unfold pySlice
        rw [List.drop_zero, Nat.sub_zero, List.take_length]]
      rw [hatom]
      dsimp only
      exact responseLoop_exit _ _ _ _ (by omega) (by simp)
  · intro r acc out hok
    cases htok : as_bytes v with
    | nil => exact absurd htok hne
    | cons d rest =>
      rw [htok] at hch hatom
      have hd := hch d (List.mem_cons_self d rest)
      unfold respW
      rw [List.cons_append]
      rw [responseLoop]
      rw [dif_pos (by simp : 0 < (d :: (rest ++ ' ' :: r)).length)]
      rw [show (d :: (rest ++ ' ' :: r)).get ⟨0, by simp⟩ = d from rfl]
      rw [if_neg hd.2.1, if_neg hd.2.2]
      dsimp only
      rw [show bfind (d :: (rest ++ ' ' :: r)) ' ' (0 + 1) = some (rest.length + 1) from by
        rw [show (0 : Nat) + 1 = 1 from rfl]
        unfold bfind
        rw [List.drop_succ_cons, List.drop_zero]
        rw [findChar_append_first rest ' ' r (fun c hc => (hch c (List.mem_cons_of_mem d hc)).1)]
        rfl]
      dsimp only
      rw [show pySlice (d :: (rest ++ ' ' :: r)) 0 (rest.length + 1) = d :: rest from by
        unfold pySlice
        rw [List.drop_zero, Nat.sub_zero, List.take_succ_cons, List.take_left]]
      rw [hatom]
      dsimp only
      apply respW_to_mid
      · simp only [List.length_cons, List.length_append]
        omega
      · rw [show (d :: (rest ++ ' ' :: r)).drop (rest.length + 1 + 1) = r from by
          rw [show d :: (rest ++ ' ' :: r) = (d :: rest ++ [' ']) ++ r from by simp]
          rw [show rest.length + 1 + 1 = (d :: rest ++ [' ']).length from by simp]
          exact List.drop_left _ _]
        exact hok

lemma find_string_end_encoded (s : List Char) (hs : ∀ c ∈ s, c ≠ '"') (r : List Char) :
    _find_string_end ('"' :: (s ++ '"' :: r)) 0 = .ok (s.length + 2) := by
  unfold _find_string_end
  rw [show (0 : Nat) + 1 = 1 from rfl]
  rw [show bfind ('"' :: (s ++ '"' :: r)) '"' 1 = some (s.length + 1) from by
    unfold bfind
    rw [List.drop_succ_cons, List.drop_zero]
    rw [findChar_append_first s '"' r hs]
    rfl]

lemma stepOk_str (s : String) (hs : ∀ c ∈ s.data, c ≠ '"') : StepOk (.str s) := by
  have hab : as_bytes (.str s) = '"' :: (s.data ++ ['"']) := rfl
  have hscan : ScansThrough (as_bytes (.str s)) := by
    rw [hab, show '"' :: (s.data ++ ['"']) = '"' :: s.data ++ ['"'] from by simp]
    exact scansThrough_string s.data hs
  refine ⟨hscan, ?_, ?_⟩
  · intro acc
    unfold respW
    rw [hab]
    rw [responseLoop]
    rw [dif_pos (by simp : 0 < ('"' :: (s.data ++ ['"'])).length)]
    rw [show ('"' :: (s.data ++ ['"'])).get ⟨0, by simp⟩ = '"' from rfl]
    rw [if_pos rfl]
    rw [show (['"'] : List Char) = '"' :: [] from rfl]
    rw [find_string_end_encoded s.data hs []]
    dsimp only
    rw [show pySlice ('"' :: (s.data ++ '"' :: [])) (0 + 1) (s.data.length + 2 - 1) = s.data from by
      unfold pySlice
      rw [List.drop_succ_cons, List.drop_zero]
      rw [show s.data.length + 2 - 1 - (0 + 1) = s.data.length from by omega]
      exact List.take_left _ _]
    rw [show String.mk s.data = s from rfl]
    have hlen : ('"' :: (s.data ++ '"' :: [])).length ≤ s.data.length + 2 + 1 := by
      simp only [List.length_cons, List.length_append, List.length_nil]
      omega
    exact responseLoop_exit _ _ _ _ hlen (by simp)
  · intro r acc out hok
    unfold respW
    rw [hab]
    rw [show '"' :: (s.data ++ ['"']) ++ ' ' :: r = '"' :: (s.data ++ '"' :: (' ' :: r)) from by simp]
    rw [responseLoop]
    rw [dif_pos (by simp : 0 < ('"' :: (s.data ++ '"' :: (' ' :: r))).length)]
    rw [show ('"' :: (s.data ++ '"' :: (' ' :: r))).get ⟨0, by simp⟩ = '"' from rfl]
    rw [if_pos rfl]
    rw [find_string_end_encoded s.data hs (' ' :: r)]
    dsimp only
    rw [show pySlice ('"' :: (s.data ++ '"' :: (' ' :: r))) (0 + 1) (s.data.length + 2 - 1) =
        s.data from by
      unfold pySlice
      rw [List.drop_succ_cons, List.drop_zero]
      rw [show s.data.length + 2 - 1 - (0 + 1) = s.data.length from by omega]
      exact List.take_left _ _]
    rw [show String.mk s.data = s from rfl]
    apply respW_to_mid
    · simp only [List.length_cons, List.length_append]
      omega
    · rw [show ('"' :: (s.data ++ '"' :: (' ' :: r))).drop (s.data.length + 2 + 1) = r from by
        rw [show '"' :: (s.data ++ '"' :: (' ' :: r)) = ('"' :: s.data ++ ['"', ' ']) ++ r from by
          simp]
        rw [show s.data.length + 2 + 1 = ('"' :: s.data ++ ['"', ' ']).length from by simp]
        exact List.drop_left _ _]
      exact hok

lemma scansThrough_bytesList : ∀ (vs : List Value),
    (∀ w ∈ vs, ScansThrough (as_bytes w)) → ScansThrough (as_bytesList vs) := by
  intro vs
  induction vs with
  | nil => intro _; exact scansThrough_nil
  | cons w ws ih =>
    intro h
    cases ws with
    | nil => exact h w (List.mem_cons_self w [])
    | cons w2 ws2 =>
      rw [show as_bytesList (w :: w2 :: ws2) = as_bytes w ++ ' ' :: as_bytesList (w2 :: ws2)
        from rfl]
      rw [show (' ' :: as_bytesList (w2 :: ws2)) = [' '] ++ as_bytesList (w2 :: ws2) from rfl]
      refine scansThrough_append (h w (List.mem_cons_self w _)) (scansThrough_append ?_ ?_)
      · exact scansThrough_char ' ' (by decide) (by decide) (by decide)
      · exact ih (fun x hx => h x (List.mem_cons_of_mem w hx))

lemma respW_bytesList : ∀ (vs : List Value), (∀ w ∈ vs, StepOk w) →
    ∀ acc, respW (as_bytesList vs) acc = .ok (acc ++ vs) := by
  intro vs
  induction vs with
  | nil =>
    intro _ acc
    unfold respW
    rw [show as_bytesList [] = [] from rfl]
    rw [responseLoop]
    rw [dif_neg (by simp)]
    rw [List.append_nil]
  | cons w ws ih =>
    intro hstep acc
    cases ws with
    | nil =>
      rw [show as_bytesList [w] = as_bytes w from rfl]
      exact (hstep w (List.mem_cons_self w [])).2.1 acc
    | cons w2 ws2 =>
      rw [show as_bytesList (w :: w2 :: ws2) = as_bytes w ++ ' ' :: as_bytesList (w2 :: ws2)
        from rfl]
      have hrest : respW (as_bytesList (w2 :: ws2)) (acc ++ [w]) =
          .ok ((acc ++ [w]) ++ (w2 :: ws2)) :=
        ih (fun x hx => hstep x (List.mem_cons_of_mem w hx)) (acc ++ [w])
      have := (hstep w (List.mem_cons_self w _)).2.2 (as_bytesList (w2 :: ws2)) acc
        ((acc ++ [w]) ++ (w2 :: ws2)) hrest
      rw [this]
      rw [List.append_assoc]
      rfl

lemma stepOk_list (vs : List Value) (hstep : ∀ w ∈ vs, StepOk w) : StepOk (.list vs) := by
  have hB : ScansThrough (as_bytesList vs) :=
    scansThrough_bytesList vs (fun w hw => (hstep w hw).1)
  have hab : as_bytes (.list vs) = '(' :: (as_bytesList vs ++ [')']) := by
    rw [show as_bytes (.list vs) = '(' :: as_bytesList vs ++ [')'] from rfl]
    simp
  have hnested : ∀ (f2 : Nat), (as_bytesList vs).length < f2 →
      responseLoop (as_bytesList vs) f2 0 [] = .ok vs := by
    intro f2 hf2
    have h0 := respW_bytesList vs hstep []
    rw [show ([] : List Value) ++ vs = vs from rfl] at h0
    exact responseLoop_suff _ _ 0 [] vs f2 (by omega) (by omega) h0
  refine ⟨?_, ?_, ?_⟩
  · rw [hab, show '(' :: (as_bytesList vs ++ [')']) = '(' :: as_bytesList vs ++ [')'] from by simp]
    exact scansThrough_parens hB
  · intro acc
    unfold respW
    rw [hab]
    rw [show ([')'] : List Char) = ')' :: [] from rfl]
    rw [responseLoop]
    rw [dif_pos (by simp : 0 < ('(' :: (as_bytesList vs ++ ')' :: [])).length)]
    rw [show ('(' :: (as_bytesList vs ++ ')' :: [])).get ⟨0, by simp⟩ = '(' from rfl]
    rw [if_neg (by decide), if_pos rfl]
    rw [find_tuple_end_encoded [] hB]
    dsimp only
    rw [show pySlice ('(' :: (as_bytesList vs ++ ')' :: [])) (0 + 1)
        ((as_bytesList vs).length + 2 - 1) = as_bytesList vs from by
      unfold pySlice
      rw [List.drop_succ_cons, List.drop_zero]
      rw [show (as_bytesList vs).length + 2 - 1 - (0 + 1) = (as_bytesList vs).length from by omega]
      exact List.take_left _ _]
    rw [hnested _ (by simp only [List.length_cons, List.length_append, List.length_nil]; omega)]
    dsimp only
    have hlen : ('(' :: (as_bytesList vs ++ ')' :: [])).length ≤ (as_bytesList vs).length + 2 + 1 := by
      simp only [List.length_cons, List.length_append, List.length_nil]
      omega
    exact responseLoop_exit _ _ _ _ hlen (by simp)
  · intro r acc out hok
    unfold respW
    rw [hab]
    rw [show '(' :: (as_bytesList vs ++ [')']) ++ ' ' :: r =
        '(' :: (as_bytesList vs ++ ')' :: (' ' :: r)) from by simp]
    rw [responseLoop]
    rw [dif_pos (by simp : 0 < ('(' :: (as_bytesList vs ++ ')' :: (' ' :: r))).length)]
    rw [show ('(' :: (as_bytesList vs ++ ')' :: (' ' :: r))).get ⟨0, by simp⟩ = '(' from rfl]
    rw [if_neg (by decide), if_pos rfl]
    rw [find_tuple_end_encoded (' ' :: r) hB]
    dsimp only
    rw [show pySlice ('(' :: (as_bytesList vs ++ ')' :: (' ' :: r))) (0 + 1)
        ((as_bytesList vs).length + 2 - 1) = as_bytesList vs from by
      unfold pySlice
      rw [List.drop_succ_cons, List.drop_zero]
      rw [show (as_bytesList vs).length + 2 - 1 - (0 + 1) = (as_bytesList vs).length from by omega]
      exact List.take_left _ _]
    rw [hnested _ (by simp only [List.length_cons, List.length_append, List.length_cons]; omega)]
    dsimp only
    apply respW_to_mid
    · simp only [List.length_cons, List.length_append]
      omega
    · rw [show ('(' :: (as_bytesList vs ++ ')' :: (' ' :: r))).drop
          ((as_bytesList vs).length + 2 + 1) = r from by
        rw [show '(' :: (as_bytesList vs ++ ')' :: (' ' :: r)) =
            ('(' :: as_bytesList vs ++ [')', ' ']) ++ r from by simp]
        rw [show (as_bytesList vs).length + 2 + 1 = ('(' :: as_bytesList vs ++ [')', ' ']).length
          from by simp]
        exact List.drop_left _ _]
      exact hok

lemma stepOk_of_representable : ∀ (v : Value), Representable v → StepOk v := by
  intro v h
  induction h with
  | bool b =>
    apply stepOk_atomToken
    · cases b <;> decide
    · cases b <;> decide
    · cases b <;> rfl
    · cases b <;> exact scansThrough_of_ordinary _ (by decide)
  | int n =>
    apply stepOk_atomToken
    · exact (atomToken_intRepr n).1
    · intro c hc
      have h2 := (atomToken_intRepr n).2 c hc
      exact ⟨h2.1, h2.2.1, h2.2.2.1⟩
    · exact atom_intRepr n
    · apply scansThrough_of_ordinary
      intro c hc
      rcases intRepr_chars n c hc with hd | rfl | rfl | rfl
      · exact ⟨isDigit_ne hd (by decide), isDigit_ne hd (by decide), isDigit_ne hd (by decide)⟩
      · exact ⟨by decide, by decide, by decide⟩
      · exact ⟨by decide, by decide, by decide⟩
      · exact ⟨by decide, by decide, by decide⟩
  | float q k hk =>
    apply stepOk_atomToken
    · exact (atomToken_floatRepr q k hk).1
    · intro c hc
      have h2 := (atomToken_floatRepr q k hk).2 c hc
      exact ⟨h2.1, h2.2.1, h2.2.2.1⟩
    · exact atom_floatRepr q k hk
    · apply scansThrough_of_ordinary
      intro c hc
      rcases floatRepr_chars q k hk c hc with hd | rfl | rfl | rfl
      · exact ⟨isDigit_ne hd (by decide), isDigit_ne hd (by decide), isDigit_ne hd (by decide)⟩
      · exact ⟨by decide, by decide, by decide⟩
      · exact ⟨by decide, by decide, by decide⟩
      · exact ⟨by decide, by decide, by decide⟩
  | str s hstr => exact stepOk_str s (fun c hc => (hstr c hc).2)
  | list vs hmem ih => exact stepOk_list vs ih

/-- C1: the codec round-trips every representable value — decoding the
encoding of `v` succeeds and returns exactly `v`. -/
theorem codec_round_trip (v : Value) (h : Representable v) :
    response (as_bytes v) = .ok (.val v) := by
  have hstep := stepOk_of_representable v h
  have h1 : respW (as_bytes v) [] = .ok [v] := by
    have := hstep.2.1 []
    rw [List.nil_append] at this
    exact this
  unfold response
  simp only [is_error, Bool.false_eq_true, if_false]
  unfold _response_recursive
  rw [show responseLoop (as_bytes v) ((as_bytes v).length + 1) 0 [] = respW (as_bytes v) []
    from rfl]
  rw [h1]

/-- Witness for C1 at a concrete nested value exercising every
constructor: a boolean, a negative integer, text with an embedded space, a
float, and an empty nested list. -/
theorem codec_round_trip_witness :
    Representable (Value.list [Value.bool true, Value.int (-3), Value.str ("a b"),
      Value.float (mkRat 1 2), Value.list []]) ∧
    response (as_bytes (Value.list [Value.bool true, Value.int (-3), Value.str ("a b"),
      Value.float (mkRat 1 2), Value.list []])) =
      .ok (.val (Value.list [Value.bool true, Value.int (-3), Value.str ("a b"),
        Value.float (mkRat 1 2), Value.list []])) := by
  have hrep : Representable (Value.list [Value.bool true, Value.int (-3), Value.str ("a b"),
      Value.float (mkRat 1 2), Value.list []]) := by
    apply Representable.list
    intro w hw
    simp only [List.mem_cons, List.not_mem_nil, or_false] at hw
    rcases hw with rfl | rfl | rfl | rfl | rfl
    · exact .bool true
    · exact .int (-3)
    · exact .str _ (by decide)
    · exact .float _ 1 (by decide)
    · exact .list [] (fun w hw => absurd hw (List.not_mem_nil w))
  exact ⟨hrep, codec_round_trip _ hrep⟩
